import Mathlib

/-!
Verification of the on-disk chained hash table
(`include/llvm/Support/OnDiskHashTable.h`).

The builder (`OnDiskChainedHashTableGenerator`), the lookup reader
(`OnDiskChainedHashTable`) and the iterable reader
(`OnDiskIterableChainedHashTable`) are embedded shallowly: the byte stream
is a `List Nat` of byte values, machine integers are `Nat` with explicit
truncation `% 2 ^ w` at the points where the C++ code narrows
(`LE.write<uint16_t>`, `LE.write<uint32_t>`, the `uint32_t Hash` field),
and the `assert`s of the C++ code are modelled by `Option` (`none` is an
assertion failure).  The user-supplied `Info` codec of the C++ template is
a structure of functions; the integer codec of the specification's
scenarios (4-byte little-endian key and value, no length prefix,
`hash k = k`) instantiates it for the concrete theorems.
-/

namespace ODHT

/-! ### Little-endian byte primitives -/

/-- Little-endian encoding of the low 16 bits of `n`
    (`endian::Writer<little>.write<uint16_t>`). -/
def toLE16 (n : Nat) : List Nat := [n % 256, n / 256 % 256]

/-- Little-endian encoding of the low 32 bits of `n`
    (`endian::Writer<little>.write<uint32_t>`). -/
def toLE32 (n : Nat) : List Nat :=
  [n % 256, n / 256 % 256, n / 65536 % 256, n / 16777216 % 256]

/-- Byte of the stream at index `i` (out-of-range reads give 0; all
    theorems only exercise in-range reads). -/
def byteAt (bs : List Nat) (i : Nat) : Nat := bs.getD i 0

/-- Read a little-endian `uint16_t` at position `p`
    (`endian::readNext<uint16_t, little, unaligned>`). -/
def readLE16 (bs : List Nat) (p : Nat) : Nat :=
  byteAt bs p + 256 * byteAt bs (p + 1)

/-- Read a little-endian `uint32_t` at position `p`
    (`endian::readNext<uint32_t, little>`). -/
def readLE32 (bs : List Nat) (p : Nat) : Nat :=
  byteAt bs p + 256 * byteAt bs (p + 1) + 65536 * byteAt bs (p + 2) +
    16777216 * byteAt bs (p + 3)

/-! ### The writer-side codec capability (`Info` of the generator) -/

/-- Writer codec: `ComputeHash`, `EmitKeyDataLength` (bytes it writes to the
    stream plus the two lengths it returns), `EmitKey`, `EmitData`. -/
structure WInfo (κ δ : Type) where
  ComputeHash : κ → Nat
  EmitKeyDataLength : κ → δ → List Nat × Nat × Nat
  EmitKey : κ → Nat → List Nat
  EmitData : κ → δ → Nat → List Nat

/-! ### Builder data model (`OnDiskChainedHashTableGenerator`) -/

/-- An `Item` of the generator: key, data and the cached 32-bit hash
    (`const uint32_t Hash`). -/
structure Item (κ δ : Type) where
  key : κ
  data : δ
  hash : Nat
deriving DecidableEq

/-- A builder-side `Bucket`: emitted offset, chain of items (head of the
    singly-linked list first) and the cached chain length counter. -/
structure Bucket (κ δ : Type) where
  off : Nat
  head : List (Item κ δ)
  length : Nat
deriving DecidableEq

/-- The generator state: `NumBuckets`, `NumEntries` and the bucket array. -/
structure Generator (κ δ : Type) where
  numBuckets : Nat
  numEntries : Nat
  buckets : List (Bucket κ δ)

/-- The freshly constructed generator: 64 buckets, all `calloc`-zeroed. -/
def initGenerator (κ δ : Type) : Generator κ δ :=
  ⟨64, 0, List.replicate 64 ⟨0, [], 0⟩⟩

/-- The private chain-level `insert(Bucket *, size_t, Item *)`: prepend the
    item to the chain at index `Hash & (Size - 1)` and bump the counter. -/
def insertItem (buckets : List (Bucket κ δ)) (size : Nat) (e : Item κ δ) :
    List (Bucket κ δ) :=
  match buckets[e.hash &&& (size - 1)]? with
  | some b => buckets.set (e.hash &&& (size - 1)) ⟨b.off, e :: b.head, b.length + 1⟩
  | none => buckets

/-- `resize(NewSize)`: walk every old chain from its head and re-insert each
    item into a fresh zeroed bucket array (which reverses chain segments). -/
def resize (g : Generator κ δ) (newSize : Nat) : Generator κ δ :=
  let newBuckets := g.buckets.foldl
    (fun acc b => b.head.foldl (fun acc2 e => insertItem acc2 newSize e) acc)
    (List.replicate newSize ⟨0, [], 0⟩)
  ⟨newSize, g.numEntries, newBuckets⟩

/-- The public `insert(Key, Data, InfoObj)`: bump `NumEntries`, resize when
    `4 * NumEntries >= 3 * NumBuckets`, then chain the new item. -/
def insert (info : WInfo κ δ) (g : Generator κ δ) (key : κ) (data : δ) :
    Generator κ δ :=
  let g2 := if 4 * (g.numEntries + 1) ≥ 3 * g.numBuckets
            then resize ⟨g.numBuckets, g.numEntries + 1, g.buckets⟩ (g.numBuckets * 2)
            else ⟨g.numBuckets, g.numEntries + 1, g.buckets⟩
  ⟨g2.numBuckets, g2.numEntries,
    insertItem g2.buckets g2.numBuckets
      ⟨key, data, info.ComputeHash key % 4294967296⟩⟩

/-- Fold a list of `(key, data)` pairs through `insert`. -/
def insertList (info : WInfo κ δ) (g : Generator κ δ) (ps : List (κ × δ)) :
    Generator κ δ :=
  ps.foldl (fun acc p => insert info acc p.1 p.2) g

/-! ### Emission (`Emit`) -/

/-- Bytes written for one item: 32-bit hash, then whatever
    `EmitKeyDataLength` writes, then the key bytes, then the data bytes. -/
def entryBytes (info : WInfo κ δ) (it : Item κ δ) : List Nat :=
  let L := info.EmitKeyDataLength it.key it.data
  toLE32 it.hash ++ L.1 ++ info.EmitKey it.key L.2.1 ++
    info.EmitData it.key it.data L.2.2

/-- Bytes of one non-empty bucket block: the 16-bit (truncating) length
    counter, then the chain's entries in chain order. -/
def bucketBytes (info : WInfo κ δ) (b : Bucket κ δ) : List Nat :=
  toLE16 b.length ++ (b.head.map (entryBytes info)).flatten

/-- The payload loop of `Emit`: walk the buckets in index order, skip empty
    ones, record each non-empty bucket's offset and write its block.
    Returns `(table offset, payload bytes, buckets with offsets filled in)`;
    `none` models a failed `assert` (a bucket at offset 0, or a chain with a
    zero length counter). -/
def emitPayload (info : WInfo κ δ) :
    Nat → List (Bucket κ δ) → Option (Nat × List Nat × List (Bucket κ δ))
  | pos, [] => some (pos, [], [])
  | pos, b :: bs =>
    match b.head with
    | [] => (emitPayload info pos bs).map fun r => (r.1, r.2.1, b :: r.2.2)
    | _ :: _ =>
      if pos = 0 then none
      else if b.length = 0 then none
      else
        let blk := bucketBytes info b
        (emitPayload info (pos + blk.length) bs).map fun r =>
          (r.1, blk ++ r.2.1, (⟨pos, b.head, b.length⟩ : Bucket κ δ) :: r.2.2)

/-- `llvm::OffsetToAlignment(Value, Align)` (via `RoundUpToAlignment`). -/
def offsetToAlignment (value align : Nat) : Nat :=
  (value + align - 1) / align * align - value

/-- `Emit(Out, InfoObj)`: the sink already holds `sink` (so `Out.tell()`
    is `sink.length`); returns the final sink contents and the table
    (directory) offset, or `none` when an assertion fails. -/
def Emit (info : WInfo κ δ) (sink : List Nat) (g : Generator κ δ) :
    Option (List Nat × Nat) :=
  match emitPayload info sink.length g.buckets with
  | none => none
  | some (tableOff0, payload, bks) =>
    let n := offsetToAlignment tableOff0 4
    let dir := toLE32 g.numBuckets ++ toLE32 g.numEntries ++
      (bks.map fun b => toLE32 b.off).flatten
    some (sink ++ payload ++ List.replicate n 0 ++ dir, tableOff0 + n)

/-! ### Reader-side codec and lookup reader (`OnDiskChainedHashTable`) -/

/-- Reader codec: the instance methods of the reader's `Info`.  The static
    `Info::ReadKeyDataLength` is type-level in C++ and is therefore a
    separate field of the reader, not of this structure.  `ReadKey` and
    `ReadData` take the byte stream and a position (the C++ buffer
    pointer) plus the length. -/
structure RInfo (ικ εκ δ : Type) where
  EqualKey : ικ → ικ → Bool
  ComputeHash : ικ → Nat
  GetInternalKey : εκ → ικ
  ReadKey : List Nat → Nat → Nat → ικ
  ReadData : ικ → List Nat → Nat → Nat → δ

/-- A non-end iterator of the lookup reader: the decoded internal key, the
    position of the value bytes, their length, and the per-call codec that
    `operator*` will use for `ReadData`. -/
structure FoundIterator (ικ εκ δ : Type) where
  key : ικ
  dataPos : Nat
  len : Nat
  info : RInfo ικ εκ δ

/-- The lookup reader: header fields read at `Create` time, the position of
    the first bucket cell (`Dir + 8`), the byte stream (base at index 0),
    the static `ReadKeyDataLength` (stream, position ↦ new position,
    key length, data length) and the constructor codec. -/
structure OnDiskChainedHashTable (ικ εκ δ : Type) where
  numBuckets : Nat
  numEntries : Nat
  bucketsPos : Nat
  bytes : List Nat
  rkdl : List Nat → Nat → Nat × Nat × Nat
  info : RInfo ικ εκ δ

/-- Dereference a found iterator (`operator*` calls `ReadData`). -/
def derefIter (bytes : List Nat) (it : FoundIterator ικ εκ δ) : δ :=
  it.info.ReadData it.key bytes it.dataPos it.len

/-- The chain-walking loop of `find`: `n` entries left, cursor at `pos`
    (pointing at an entry's 32-bit hash).  Hash mismatch or key mismatch
    skips `KeyLen + DataLen` bytes; a match returns the iterator. -/
def findLoop (bytes : List Nat) (rkdl : List Nat → Nat → Nat × Nat × Nat)
    (ip : RInfo ικ εκ δ) (ikey : ικ) (keyHash : Nat) :
    Nat → Nat → Option (FoundIterator ικ εκ δ)
  | 0, _ => none
  | n + 1, pos =>
    let itemHash := readLE32 bytes pos
    let L := rkdl bytes (pos + 4)
    let itemLen := L.2.1 + L.2.2
    if itemHash ≠ keyHash then
      findLoop bytes rkdl ip ikey keyHash n (L.1 + itemLen)
    else
      let x := ip.ReadKey bytes L.1 L.2.1
      if ip.EqualKey x ikey then some ⟨x, L.1 + L.2.1, L.2.2, ip⟩
      else findLoop bytes rkdl ip ikey keyHash n (L.1 + itemLen)

/-- `find(EKey, InfoPtr)`: `none` for the per-call codec means the C++
    default null pointer (fall back to the constructor codec).
    `GetInternalKey` and `ComputeHash` always use the constructor codec;
    the result `none` is the end iterator. -/
def find (ht : OnDiskChainedHashTable ικ εκ δ) (ekey : εκ)
    (infoPtr : Option (RInfo ικ εκ δ)) : Option (FoundIterator ικ εκ δ) :=
  let ip := infoPtr.getD ht.info
  let ikey := ht.info.GetInternalKey ekey
  let keyHash := ht.info.ComputeHash ikey % 4294967296
  let idx := keyHash &&& (ht.numBuckets - 1)
  let off := readLE32 ht.bytes (ht.bucketsPos + 4 * idx)
  if off = 0 then none
  else
    let len := readLE16 ht.bytes off
    findLoop ht.bytes ht.rkdl ip ikey keyHash len (off + 2)

/-- `OnDiskChainedHashTable::Create`: check `Buckets > Base` and the 4-byte
    alignment, read `NumBuckets` and `NumEntries`, advance to the first
    bucket cell. -/
def Create (bytes : List Nat) (dir : Nat)
    (rkdl : List Nat → Nat → Nat × Nat × Nat) (info : RInfo ικ εκ δ) :
    Option (OnDiskChainedHashTable ικ εκ δ) :=
  if dir = 0 then none
  else if dir % 4 ≠ 0 then none
  else some ⟨readLE32 bytes dir, readLE32 bytes (dir + 4), dir + 8, bytes,
    rkdl, info⟩

/-! ### Iterable reader (`OnDiskIterableChainedHashTable`) -/

/-- The iterable reader adds the payload start position. -/
structure OnDiskIterableChainedHashTable (ικ εκ δ : Type) extends
    OnDiskChainedHashTable ικ εκ δ where
  payload : Nat

/-- `OnDiskIterableChainedHashTable::Create`. -/
def CreateIterable (bytes : List Nat) (dir payload : Nat)
    (rkdl : List Nat → Nat → Nat × Nat × Nat) (info : RInfo ικ εκ δ) :
    Option (OnDiskIterableChainedHashTable ικ εκ δ) :=
  if dir = 0 then none
  else if dir % 4 ≠ 0 then none
  else some ⟨⟨readLE32 bytes dir, readLE32 bytes (dir + 4), dir + 8, bytes,
    rkdl, info⟩, payload⟩

/-- State of a `data_iterator` / `key_iterator`: cursor, items left in the
    current bucket, entries left overall. -/
structure DataIterState where
  ptr : Nat
  numItemsInBucketLeft : Nat
  numEntriesLeft : Nat
deriving DecidableEq

/-- Preincrement of the iterators: enter a new bucket when the per-bucket
    counter is 0 (consuming the 16-bit header), skip the 4 hash bytes, read
    the lengths, skip the key and data, decrement both counters. -/
def dataIterNext (bytes : List Nat) (rkdl : List Nat → Nat → Nat × Nat × Nat)
    (st : DataIterState) : DataIterState :=
  let p1 := if st.numItemsInBucketLeft = 0 then st.ptr + 2 else st.ptr
  let items := if st.numItemsInBucketLeft = 0 then readLE16 bytes st.ptr
               else st.numItemsInBucketLeft
  let L := rkdl bytes (p1 + 4)
  ⟨L.1 + L.2.1 + L.2.2, items - 1, st.numEntriesLeft - 1⟩

/-- Dereference of `data_iterator`: speculatively skip a bucket header when
    at a bucket boundary, skip the hash, read the lengths, decode the key
    and then the data. -/
def dataIterDeref (bytes : List Nat)
    (rkdl : List Nat → Nat → Nat × Nat × Nat) (info : RInfo ικ εκ δ)
    (st : DataIterState) : δ :=
  let lp := if st.numItemsInBucketLeft = 0 then st.ptr + 2 else st.ptr
  let L := rkdl bytes (lp + 4)
  let key := info.ReadKey bytes L.1 L.2.1
  info.ReadData key bytes (L.1 + L.2.1) L.2.2

/-- Collect the values of the iteration `data_begin() .. data_end()`:
    dereference then preincrement while `NumEntriesLeft` is nonzero (the
    iterator equality of the C++ class compares only `NumEntriesLeft`). -/
def dataIterList (bytes : List Nat)
    (rkdl : List Nat → Nat → Nat × Nat × Nat) (info : RInfo ικ εκ δ) :
    Nat → DataIterState → List δ
  | 0, _ => []
  | fuel + 1, st =>
    if st.numEntriesLeft = 0 then []
    else dataIterDeref bytes rkdl info st ::
      dataIterList bytes rkdl info fuel (dataIterNext bytes rkdl st)

/-- Everything yielded by iterating from `data_begin()` to `data_end()`. -/
def dataAll (t : OnDiskIterableChainedHashTable ικ εκ δ) : List δ :=
  dataIterList t.bytes t.rkdl t.info t.numEntries ⟨t.payload, 0, t.numEntries⟩

/-! ### The integer codec of the specification's scenarios:
    key = value = `u32 LE`, no extra length prefix, `hash k = k`. -/

/-- Writer side of the integer codec. -/
def intWInfo : WInfo Nat Nat :=
  ⟨fun k => k, fun _ _ => ([], 4, 4), fun k _ => toLE32 k, fun _ d _ => toLE32 d⟩

/-- The static `ReadKeyDataLength` of the integer codec: writes no prefix,
    so the cursor stays put and the lengths are 4 and 4. -/
def intRKDL : List Nat → Nat → Nat × Nat × Nat := fun _ p => (p, 4, 4)

/-- Reader side of the integer codec. -/
def intRInfo : RInfo Nat Nat Nat :=
  ⟨fun a b => a == b, fun k => k, fun k => k,
   fun bytes p _ => readLE32 bytes p, fun _ bytes p _ => readLE32 bytes p⟩

/-- Reader codec whose `data_type` is the `(key, value)` pair: the same
    stored bytes, but `ReadData` pairs the value with the key it was handed
    (a legitimate `Info` for the same written format, used to observe the
    pairs yielded by iteration). -/
def pairRInfo : RInfo Nat Nat (Nat × Nat) :=
  ⟨fun a b => a == b, fun k => k, fun k => k,
   fun bytes p _ => readLE32 bytes p, fun k bytes p _ => (k, readLE32 bytes p)⟩


/-! ### Derived views and invariants used by the theorems -/

/-- All items currently chained in the generator, in bucket order. -/
def genItems (g : Generator κ δ) : List (Item κ δ) :=
  (g.buckets.map Bucket.head).flatten

/-- The item built by `insert` for a pair. -/
def itemOfPair (info : WInfo κ δ) (p : κ × δ) : Item κ δ :=
  ⟨p.1, p.2, info.ComputeHash p.1 % 4294967296⟩

/-- Well-formedness of a bucket array of size `size`: correct length, each
    length counter matches its chain, offsets still zero (they are only
    written during `Emit`), and every item sits in the bucket selected by
    `Hash & (size - 1)`. -/
def BucketsWF (size : Nat) (bks : List (Bucket κ δ)) : Prop :=
  bks.length = size ∧
  (∀ (i : Nat) (b : Bucket κ δ), bks[i]? = some b → b.length = b.head.length) ∧
  (∀ (i : Nat) (b : Bucket κ δ), bks[i]? = some b → b.off = 0) ∧
  (∀ (i : Nat) (b : Bucket κ δ), bks[i]? = some b →
    ∀ it ∈ b.head, it.hash &&& (size - 1) = i)

/-- Well-formed generator: a power-of-two bucket count and a well-formed
    bucket array. -/
def GenWF (g : Generator κ δ) : Prop :=
  (∃ e, g.numBuckets = 2 ^ e) ∧ BucketsWF g.numBuckets g.buckets

/-- The load-factor invariant kept by the builder: at least 64 buckets and
    `4 * NumEntries < 3 * NumBuckets` after every insert. -/
def LoadInv (g : Generator κ δ) : Prop :=
  64 ≤ g.numBuckets ∧ 4 * g.numEntries < 3 * g.numBuckets



/-- The payload as a pure function of the bucket array: concatenation of the
    blocks of the non-empty buckets, in index order. -/
def bucketsPayload (info : WInfo κ δ) (buckets : List (Bucket κ δ)) : List Nat :=
  (buckets.map fun b => if b.head.isEmpty then [] else bucketBytes info b).flatten



/-- Well-formedness of an item under the integer codec: the stored 32-bit
    hash equals the key (`hash k = k`), and key and value fit in 32 bits. -/
def ItemWFInt (it : Item Nat Nat) : Prop :=
  it.hash = it.key ∧ it.key < 4294967296 ∧ it.data < 4294967296

/-- The `(key, value)` pair of a builder item. -/
def pairOfItem (it : Item Nat Nat) : Nat × Nat := (it.key, it.data)



/-! ### Concrete inputs used by the verification scenarios -/

/-- The value of the most recent insertion of key `k` in an insert sequence. -/
def mostRecent (k : Nat) (ps : List (Nat × Nat)) : Option Nat :=
  (ps.reverse.find? (fun p => p.1 == k)).map Prod.snd

/-- Insert key 0 twice (values 1 then 2), then 46 distinct keys, so the
    48th insert crosses the load-factor threshold and triggers a resize. -/
def cexPairs : List (Nat × Nat) :=
  (0, 1) :: (0, 2) :: (List.range 46).map (fun i => (i + 1, 0))

/-- The full pipeline at `cexPairs`: emit after an 8-byte prefix, build a
    reader, look up key 0 and dereference the returned iterator. -/
def cexDeref : Option Nat :=
  match Emit intWInfo (List.replicate 8 0)
      (insertList intWInfo (initGenerator Nat Nat) cexPairs) with
  | none => none
  | some (stream, dirOff) =>
    match Create stream dirOff intRKDL intRInfo with
    | none => none
    | some ht =>
      match find ht 0 none with
      | none => none
      | some fnd => some (derefIter stream fnd)

/-- The stream emitted for the single insert `(7, 42)` after an 8-byte zero
    prefix (the specification's scenario 2). -/
def w1stream : List Nat :=
  List.replicate 8 0 ++
  [1, 0, 7, 0, 0, 0, 7, 0, 0, 0, 42, 0, 0, 0, 0, 0, 64, 0, 0, 0, 1, 0, 0, 0] ++
  List.replicate 28 0 ++ [8, 0, 0, 0] ++ List.replicate 224 0



/-- The stream emitted for the empty table after an 8-byte zero prefix
    (the specification's scenario 1). -/
def emptyTableStream : List Nat :=
  List.replicate 8 0 ++ ([64, 0, 0, 0, 0, 0, 0, 0] ++ List.replicate 256 0)



/-- `n` copies of the pair `(0, 0)`: every insert lands in bucket 0, so a
    single bucket can be driven past 65535 entries. -/
def dupPairs (n : Nat) : List (Nat × Nat) := List.replicate n (0, 0)

/-- Strip the codec from a `find` result, keeping the observable data:
    decoded key, value position and value length (`none` is the end
    iterator). -/
def stripIter : Option (FoundIterator ικ εκ δ) → Option (ικ × Nat × Nat)
  | none => none
  | some it => some (it.key, it.dataPos, it.len)

/-- A reader codec agreeing with `intRInfo` on `ReadKey` and `EqualKey` but
    with different `ComputeHash`, `GetInternalKey` and `ReadData`. -/
def altRInfo : RInfo Nat Nat Nat :=
  ⟨fun a b => a == b, fun k => k + 999, fun k => k + 123,
   fun bytes p _ => readLE32 bytes p, fun _ _ _ _ => 0⟩


end ODHT

/-! ## Byte-level lemmas -/

namespace ODHT

theorem toLE16_length (n : Nat) : (toLE16 n).length = 2 := rfl

theorem toLE32_length (n : Nat) : (toLE32 n).length = 4 := rfl

theorem byteAt_middle (pre l suf : List Nat) (j : Nat) (h : j < l.length) :
    byteAt (pre ++ (l ++ suf)) (pre.length + j) = byteAt l j := by
  unfold byteAt
  rw [List.getD_append_right pre (l ++ suf) 0 _ (Nat.le_add_right _ _)]
  have hj : pre.length + j - pre.length = j := by omega
  rw [hj, List.getD_append l suf 0 j h]

theorem readLE32_at (pre suf : List Nat) (n : Nat) :
    readLE32 (pre ++ (toLE32 n ++ suf)) pre.length = n % 4294967296 := by
  have h0 : byteAt (pre ++ (toLE32 n ++ suf)) pre.length = n % 256 :=
    (byteAt_middle pre (toLE32 n) suf 0 (by simp [toLE32])).trans rfl
  have h1 : byteAt (pre ++ (toLE32 n ++ suf)) (pre.length + 1) = n / 256 % 256 :=
    (byteAt_middle pre (toLE32 n) suf 1 (by simp [toLE32])).trans rfl
  have h2 : byteAt (pre ++ (toLE32 n ++ suf)) (pre.length + 2) = n / 65536 % 256 :=
    (byteAt_middle pre (toLE32 n) suf 2 (by simp [toLE32])).trans rfl
  have h3 : byteAt (pre ++ (toLE32 n ++ suf)) (pre.length + 3) = n / 16777216 % 256 :=
    (byteAt_middle pre (toLE32 n) suf 3 (by simp [toLE32])).trans rfl
  unfold readLE32
  rw [h0, h1, h2, h3]
  omega

theorem readLE16_at (pre suf : List Nat) (n : Nat) :
    readLE16 (pre ++ (toLE16 n ++ suf)) pre.length = n % 65536 := by
  have h0 : byteAt (pre ++ (toLE16 n ++ suf)) pre.length = n % 256 :=
    (byteAt_middle pre (toLE16 n) suf 0 (by simp [toLE16])).trans rfl
  have h1 : byteAt (pre ++ (toLE16 n ++ suf)) (pre.length + 1) = n / 256 % 256 :=
    (byteAt_middle pre (toLE16 n) suf 1 (by simp [toLE16])).trans rfl
  unfold readLE16
  rw [h0, h1]
  omega

/-- Positional form of `readLE32_at`, convenient after reassociation. -/
theorem readLE32_at' (bs : List Nat) (p n : Nat) (pre suf : List Nat)
    (hbs : bs = pre ++ (toLE32 n ++ suf)) (hp : p = pre.length) :
    readLE32 bs p = n % 4294967296 := by
  subst hbs; subst hp; exact readLE32_at pre suf n

/-- Positional form of `readLE16_at`. -/
theorem readLE16_at' (bs : List Nat) (p n : Nat) (pre suf : List Nat)
    (hbs : bs = pre ++ (toLE16 n ++ suf)) (hp : p = pre.length) :
    readLE16 bs p = n % 65536 := by
  subst hbs; subst hp; exact readLE16_at pre suf n

/-- Reading the `i`-th 32-bit cell of a packed array of 32-bit values. -/
theorem readLE32_cells (offs : List Nat) :
    ∀ (i : Nat), i < offs.length → ∀ (pre suf : List Nat),
    readLE32 (pre ++ ((offs.map toLE32).flatten ++ suf)) (pre.length + 4 * i) =
      offs.getD i 0 % 4294967296 := by
  induction offs with
  | nil => intro i hi; exact absurd hi (by simp)
  | cons o os ih =>
    intro i hi pre suf
    cases i with
    | zero =>
      have hassoc : pre ++ (((o :: os).map toLE32).flatten ++ suf) =
          pre ++ (toLE32 o ++ ((os.map toLE32).flatten ++ suf)) := by
        simp [List.append_assoc]
      rw [show pre.length + 4 * 0 = pre.length by omega, hassoc,
        readLE32_at pre _ o]
      rfl
    | succ j =>
      have hassoc : pre ++ (((o :: os).map toLE32).flatten ++ suf) =
          (pre ++ toLE32 o) ++ ((os.map toLE32).flatten ++ suf) := by
        simp [List.append_assoc]
      have hpos : pre.length + 4 * (j + 1) = (pre ++ toLE32 o).length + 4 * j := by
        simp [toLE32]; omega
      rw [hassoc, hpos, ih j (by simpa using hi)]
      rfl

end ODHT

/-! ## Builder invariants -/

namespace ODHT

theorem insertItem_length (buckets : List (Bucket κ δ)) (size : Nat)
    (e : Item κ δ) : (insertItem buckets size e).length = buckets.length := by
  unfold insertItem
  cases hb : buckets[e.hash &&& (size - 1)]? with
  | none => rfl
  | some b => simp

theorem insertItem_getElem_ne (buckets : List (Bucket κ δ)) (size : Nat)
    (e : Item κ δ) (j : Nat) (h : j ≠ e.hash &&& (size - 1)) :
    (insertItem buckets size e)[j]? = buckets[j]? := by
  unfold insertItem
  cases hb : buckets[e.hash &&& (size - 1)]? with
  | none => rfl
  | some b => exact List.getElem?_set_ne (Ne.symm h)

theorem insertItem_getElem_eq (buckets : List (Bucket κ δ)) (size : Nat)
    (e : Item κ δ) (b : Bucket κ δ)
    (hb : buckets[e.hash &&& (size - 1)]? = some b) :
    (insertItem buckets size e)[e.hash &&& (size - 1)]? =
      some ⟨b.off, e :: b.head, b.length + 1⟩ := by
  have hlt : e.hash &&& (size - 1) < buckets.length := by
    rcases List.getElem?_eq_some_iff.1 hb with ⟨h, _⟩
    exact h
  unfold insertItem
  rw [hb]
  exact List.getElem?_set_self hlt

theorem flatten_map_set_cons (l : List (Bucket κ δ)) :
    ∀ (i : Nat) (b : Bucket κ δ), l[i]? = some b → ∀ (e : Item κ δ),
    List.Perm
      ((l.set i ⟨b.off, e :: b.head, b.length + 1⟩).map Bucket.head).flatten
      (e :: (l.map Bucket.head).flatten) := by
  induction l with
  | nil => intro i b hb; simp at hb
  | cons c t ih =>
    intro i b hb e
    cases i with
    | zero =>
      simp only [List.getElem?_cons_zero, Option.some_inj] at hb
      subst hb
      simp [List.set]
    | succ j =>
      simp only [List.getElem?_cons_succ] at hb
      have h1 := (ih j b hb e).append_left c.head
      have h2 : List.Perm (c.head ++ (e :: (t.map Bucket.head).flatten))
          (e :: (c.head ++ (t.map Bucket.head).flatten)) := List.perm_middle
      have h3 := h1.trans h2
      simpa using h3

theorem insertItem_items (buckets : List (Bucket κ δ)) (size : Nat)
    (e : Item κ δ) (h : e.hash &&& (size - 1) < buckets.length) :
    List.Perm ((insertItem buckets size e).map Bucket.head).flatten
      (e :: (buckets.map Bucket.head).flatten) := by
  have hb : buckets[e.hash &&& (size - 1)]? =
      some buckets[e.hash &&& (size - 1)] := List.getElem?_eq_getElem h
  unfold insertItem
  rw [hb]
  exact flatten_map_set_cons buckets _ _ hb e

theorem foldl_insertItem_length (size : Nat) (its : List (Item κ δ)) :
    ∀ (acc : List (Bucket κ δ)),
    (its.foldl (fun a e => insertItem a size e) acc).length = acc.length := by
  induction its with
  | nil => intro acc; rfl
  | cons e its ih =>
    intro acc
    simp only [List.foldl_cons]
    rw [ih (insertItem acc size e), insertItem_length]

theorem foldl_insertItem_items (size : Nat) (hsz : 0 < size)
    (its : List (Item κ δ)) :
    ∀ (acc : List (Bucket κ δ)), acc.length = size →
    List.Perm
      ((its.foldl (fun a e => insertItem a size e) acc).map Bucket.head).flatten
      (its ++ (acc.map Bucket.head).flatten) := by
  induction its with
  | nil => intro acc _; simp
  | cons e its ih =>
    intro acc hlen
    have hidx : e.hash &&& (size - 1) < acc.length := by
      have := Nat.and_le_right (n := e.hash) (m := size - 1)
      omega
    have h1 := insertItem_items acc size e hidx
    have h2 := ih (insertItem acc size e) (by rw [insertItem_length]; exact hlen)
    simp only [List.foldl_cons]
    exact h2.trans ((h1.append_left its).trans List.perm_middle)

theorem foldl_buckets_length (size : Nat) (bs : List (Bucket κ δ)) :
    ∀ (acc : List (Bucket κ δ)),
    (bs.foldl (fun a b => b.head.foldl (fun a2 e => insertItem a2 size e) a)
      acc).length = acc.length := by
  induction bs with
  | nil => intro acc; rfl
  | cons b bs ih =>
    intro acc
    simp only [List.foldl_cons]
    rw [ih, foldl_insertItem_length]

theorem foldl_buckets_items (size : Nat) (hsz : 0 < size)
    (bs : List (Bucket κ δ)) :
    ∀ (acc : List (Bucket κ δ)), acc.length = size →
    List.Perm
      ((bs.foldl (fun a b => b.head.foldl (fun a2 e => insertItem a2 size e) a)
        acc).map Bucket.head).flatten
      ((bs.map Bucket.head).flatten ++ (acc.map Bucket.head).flatten) := by
  induction bs with
  | nil => intro acc _; simp
  | cons b bs ih =>
    intro acc hlen
    have hacc1 : (b.head.foldl (fun a2 e => insertItem a2 size e) acc).length
        = size := by rw [foldl_insertItem_length]; exact hlen
    have h1 := foldl_insertItem_items size hsz b.head acc hlen
    have h2 := ih (b.head.foldl (fun a2 e => insertItem a2 size e) acc) hacc1
    simp only [List.foldl_cons]
    have h3 := h2.trans (h1.append_left ((bs.map Bucket.head).flatten))
    have h4 : List.Perm
        ((bs.map Bucket.head).flatten ++ (b.head ++ (acc.map Bucket.head).flatten))
        (((b :: bs).map Bucket.head).flatten ++ (acc.map Bucket.head).flatten) := by
      have hc : List.Perm ((bs.map Bucket.head).flatten ++ b.head)
          (b.head ++ (bs.map Bucket.head).flatten) := List.perm_append_comm
      have := hc.append_right ((acc.map Bucket.head).flatten)
      simpa [List.append_assoc] using this
    exact h3.trans h4

theorem resize_numBuckets (g : Generator κ δ) (n : Nat) :
    (resize g n).numBuckets = n := rfl

theorem resize_numEntries (g : Generator κ δ) (n : Nat) :
    (resize g n).numEntries = g.numEntries := rfl

theorem resize_buckets_length (g : Generator κ δ) (n : Nat) :
    (resize g n).buckets.length = n := by
  unfold resize
  simp only
  rw [foldl_buckets_length]
  simp

theorem resize_items (g : Generator κ δ) (n : Nat) (hn : 0 < n) :
    List.Perm (genItems (resize g n)) (genItems g) := by
  unfold genItems resize
  simp only
  have h := foldl_buckets_items n hn g.buckets
    (List.replicate n (⟨0, [], 0⟩ : Bucket κ δ)) (by simp)
  have h2 : ((List.replicate n (⟨0, [], 0⟩ : Bucket κ δ)).map
      Bucket.head).flatten = ([] : List (Item κ δ)) := by
    simp [List.map_replicate]
  rw [h2, List.append_nil] at h
  exact h

end ODHT

/-! ## Well-formedness of the builder state -/

namespace ODHT

theorem insertItem_wf (size : Nat) (hsz : 0 < size)
    (bks : List (Bucket κ δ)) (e : Item κ δ) (hw : BucketsWF size bks) :
    BucketsWF size (insertItem bks size e) := by
  obtain ⟨hlen, hc, ho, hp⟩ := hw
  have hidx : e.hash &&& (size - 1) < bks.length := by
    have := Nat.and_le_right (n := e.hash) (m := size - 1)
    omega
  have hb : bks[e.hash &&& (size - 1)]? = some bks[e.hash &&& (size - 1)] :=
    List.getElem?_eq_getElem hidx
  refine ⟨by rw [insertItem_length]; exact hlen, ?_, ?_, ?_⟩
  · intro i bi hbi
    by_cases hi : i = e.hash &&& (size - 1)
    · subst hi
      rw [insertItem_getElem_eq bks size e _ hb] at hbi
      obtain rfl := Option.some_inj.1 hbi
      have := hc _ _ hb
      simpa using this
    · rw [insertItem_getElem_ne bks size e i hi] at hbi
      exact hc _ _ hbi
  · intro i bi hbi
    by_cases hi : i = e.hash &&& (size - 1)
    · subst hi
      rw [insertItem_getElem_eq bks size e _ hb] at hbi
      obtain rfl := Option.some_inj.1 hbi
      simpa using ho _ _ hb
    · rw [insertItem_getElem_ne bks size e i hi] at hbi
      exact ho _ _ hbi
  · intro i bi hbi it hit
    by_cases hi : i = e.hash &&& (size - 1)
    · subst hi
      rw [insertItem_getElem_eq bks size e _ hb] at hbi
      obtain rfl := Option.some_inj.1 hbi
      rcases List.mem_cons.1 hit with h | h
      · subst h; rfl
      · exact hp _ _ hb it h
    · rw [insertItem_getElem_ne bks size e i hi] at hbi
      exact hp _ _ hbi it hit

theorem foldl_insertItem_wf (size : Nat) (hsz : 0 < size)
    (its : List (Item κ δ)) :
    ∀ (acc : List (Bucket κ δ)), BucketsWF size acc →
    BucketsWF size (its.foldl (fun a e => insertItem a size e) acc) := by
  induction its with
  | nil => intro acc h; exact h
  | cons e its ih =>
    intro acc h
    simp only [List.foldl_cons]
    exact ih _ (insertItem_wf size hsz acc e h)

theorem replicate_wf (size : Nat) :
    BucketsWF size (List.replicate size (⟨0, [], 0⟩ : Bucket κ δ)) := by
  refine ⟨by simp, ?_, ?_, ?_⟩ <;> intro i b hb
  · rw [List.getElem?_replicate] at hb
    split at hb
    · obtain rfl := Option.some_inj.1 hb; rfl
    · simp at hb
  · rw [List.getElem?_replicate] at hb
    split at hb
    · obtain rfl := Option.some_inj.1 hb; rfl
    · simp at hb
  · rw [List.getElem?_replicate] at hb
    split at hb
    · obtain rfl := Option.some_inj.1 hb
      intro it hit; simp at hit
    · simp at hb

theorem foldl_buckets_wf (size : Nat) (hsz : 0 < size)
    (bs : List (Bucket κ δ)) :
    ∀ (acc : List (Bucket κ δ)), BucketsWF size acc →
    BucketsWF size
      (bs.foldl (fun a b => b.head.foldl (fun a2 e => insertItem a2 size e) a)
        acc) := by
  induction bs with
  | nil => intro acc h; exact h
  | cons b bs ih =>
    intro acc h
    simp only [List.foldl_cons]
    exact ih _ (foldl_insertItem_wf size hsz b.head acc h)

theorem resize_wf (g : Generator κ δ) (n : Nat) (hn : 0 < n) :
    BucketsWF n (resize g n).buckets := by
  unfold resize
  simp only
  exact foldl_buckets_wf n hn g.buckets _ (replicate_wf n)

theorem genWF_init : GenWF (initGenerator κ δ) := by
  refine ⟨⟨6, rfl⟩, ?_⟩
  exact replicate_wf 64

theorem insert_wf (info : WInfo κ δ) (g : Generator κ δ) (k : κ) (d : δ)
    (h : GenWF g) : GenWF (insert info g k d) := by
  obtain ⟨⟨e, he⟩, hw⟩ := h
  have hpos : 0 < g.numBuckets := by rw [he]; exact Nat.pos_pow_of_pos e (by omega)
  unfold insert
  split
  · refine ⟨⟨e + 1, ?_⟩, ?_⟩
    · simp only [resize_numBuckets]
      rw [he]; ring
    · simp only [resize_numBuckets]
      exact insertItem_wf _ (by omega) _ _
        (resize_wf ⟨g.numBuckets, g.numEntries + 1, g.buckets⟩
          (g.numBuckets * 2) (by omega))
  · exact ⟨⟨e, he⟩, insertItem_wf _ hpos _ _ hw⟩

theorem insert_numEntries (info : WInfo κ δ) (g : Generator κ δ) (k : κ)
    (d : δ) : (insert info g k d).numEntries = g.numEntries + 1 := by
  unfold insert
  split <;> rfl

theorem insert_items (info : WInfo κ δ) (g : Generator κ δ) (k : κ) (d : δ)
    (h : GenWF g) :
    List.Perm (genItems (insert info g k d))
      (itemOfPair info (k, d) :: genItems g) := by
  obtain ⟨⟨e, he⟩, hlen, _, _, _⟩ := h
  have hpos : 0 < g.numBuckets := by rw [he]; exact Nat.pos_pow_of_pos e (by omega)
  unfold insert
  split
  · have hrl : (resize ⟨g.numBuckets, g.numEntries + 1, g.buckets⟩
        (g.numBuckets * 2)).buckets.length = g.numBuckets * 2 :=
      resize_buckets_length _ _
    have hidx : (itemOfPair info (k, d)).hash &&& (g.numBuckets * 2 - 1) <
        (resize ⟨g.numBuckets, g.numEntries + 1, g.buckets⟩
          (g.numBuckets * 2)).buckets.length := by
      have := Nat.and_le_right (n := (itemOfPair info (k, d)).hash)
        (m := g.numBuckets * 2 - 1)
      omega
    have h1 := insertItem_items
      (resize ⟨g.numBuckets, g.numEntries + 1, g.buckets⟩
        (g.numBuckets * 2)).buckets
      ((resize ⟨g.numBuckets, g.numEntries + 1, g.buckets⟩
        (g.numBuckets * 2)).numBuckets)
      (itemOfPair info (k, d)) (by simpa [resize_numBuckets] using hidx)
    have h2 : List.Perm
        (genItems (resize ⟨g.numBuckets, g.numEntries + 1, g.buckets⟩
          (g.numBuckets * 2)))
        (genItems g) := by
      have := resize_items ⟨g.numBuckets, g.numEntries + 1, g.buckets⟩
        (g.numBuckets * 2) (by omega)
      exact this
    exact h1.trans (h2.cons _)
  · have hidx : (itemOfPair info (k, d)).hash &&& (g.numBuckets - 1) <
        g.buckets.length := by
      have := Nat.and_le_right (n := (itemOfPair info (k, d)).hash)
        (m := g.numBuckets - 1)
      omega
    exact insertItem_items g.buckets g.numBuckets (itemOfPair info (k, d)) hidx

theorem insertList_wf (info : WInfo κ δ) (ps : List (κ × δ)) :
    ∀ (g : Generator κ δ), GenWF g → GenWF (insertList info g ps) := by
  induction ps with
  | nil => intro g h; exact h
  | cons p ps ih =>
    intro g h
    exact ih _ (insert_wf info g p.1 p.2 h)

theorem insertList_numEntries (info : WInfo κ δ) (ps : List (κ × δ)) :
    ∀ (g : Generator κ δ),
    (insertList info g ps).numEntries = g.numEntries + ps.length := by
  induction ps with
  | nil => intro g; simp [insertList]
  | cons p ps ih =>
    intro g
    have : insertList info g (p :: ps) = insertList info (insert info g p.1 p.2) ps := rfl
    rw [this, ih, insert_numEntries]
    simp
    omega

theorem insertList_items (info : WInfo κ δ) (ps : List (κ × δ)) :
    ∀ (g : Generator κ δ), GenWF g →
    List.Perm (genItems (insertList info g ps))
      (ps.map (itemOfPair info) ++ genItems g) := by
  induction ps with
  | nil => intro g _; simp [insertList]
  | cons p ps ih =>
    intro g h
    have hrec : insertList info g (p :: ps) =
      insertList info (insert info g p.1 p.2) ps := rfl
    rw [hrec]
    have h1 := ih (insert info g p.1 p.2) (insert_wf info g p.1 p.2 h)
    have h2 := (insert_items info g p.1 p.2 h).append_left (ps.map (itemOfPair info))
    exact (h1.trans h2).trans List.perm_middle

theorem insert_load (info : WInfo κ δ) (g : Generator κ δ) (k : κ) (d : δ)
    (h : LoadInv g) : LoadInv (insert info g k d) := by
  obtain ⟨h1, h2⟩ := h
  unfold insert LoadInv
  split
  · simp only [resize_numBuckets, resize_numEntries]
    constructor <;> omega
  · simp only
    rename_i hc
    constructor
    · exact h1
    · simp only [not_le] at hc
      omega

theorem insertList_load (info : WInfo κ δ) (ps : List (κ × δ)) :
    ∀ (g : Generator κ δ), LoadInv g → LoadInv (insertList info g ps) := by
  induction ps with
  | nil => intro g h; exact h
  | cons p ps ih =>
    intro g h
    exact ih _ (insert_load info g p.1 p.2 h)

/-- Bound relating bucket count to entry count: `3·NB ≤ 8·NE + 192`. -/
theorem insert_bound (info : WInfo κ δ) (g : Generator κ δ) (k : κ) (d : δ)
    (h : 3 * g.numBuckets ≤ 8 * g.numEntries + 192) :
    3 * (insert info g k d).numBuckets ≤
      8 * (insert info g k d).numEntries + 192 := by
  unfold insert
  split
  · simp only [resize_numBuckets, resize_numEntries]
    rename_i hc
    omega
  · simp only
    omega

theorem insertList_bound (info : WInfo κ δ) (ps : List (κ × δ)) :
    ∀ (g : Generator κ δ), 3 * g.numBuckets ≤ 8 * g.numEntries + 192 →
    3 * (insertList info g ps).numBuckets ≤
      8 * (insertList info g ps).numEntries + 192 := by
  induction ps with
  | nil => intro g h; exact h
  | cons p ps ih =>
    intro g h
    exact ih _ (insert_bound info g p.1 p.2 h)

end ODHT

/-! ## Structure of the emitted payload -/

namespace ODHT

theorem emitPayload_replicate_empty (info : WInfo κ δ) (k : Nat) :
    ∀ (p : Nat),
    emitPayload info p (List.replicate k (⟨0, [], 0⟩ : Bucket κ δ)) =
      some (p, [], List.replicate k ⟨0, [], 0⟩) := by
  induction k with
  | zero => intro p; rfl
  | succ k ih =>
    intro p
    rw [List.replicate_succ]
    unfold emitPayload
    simp only
    rw [ih p]
    rfl

theorem emitPayload_zero_none (info : WInfo κ δ) (buckets : List (Bucket κ δ))
    (hne : ∃ b ∈ buckets, b.head ≠ []) :
    emitPayload info 0 buckets = none := by
  induction buckets with
  | nil => simp at hne
  | cons b bs ih =>
    obtain ⟨w, hw, hwne⟩ := hne
    cases hh : b.head with
    | nil =>
      have hwbs : w ∈ bs := by
        rcases List.mem_cons.1 hw with h | h
        · subst h; exact absurd hh hwne
        · exact h
      unfold emitPayload
      rw [hh]
      simp only
      rw [ih ⟨w, hwbs, hwne⟩]
      rfl
    | cons x xs =>
      unfold emitPayload
      rw [hh]
      simp

theorem emitPayload_sound (info : WInfo κ δ) :
    ∀ (buckets : List (Bucket κ δ)) (p0 tOff : Nat) (payload : List Nat)
      (out : List (Bucket κ δ)),
    emitPayload info p0 buckets = some (tOff, payload, out) →
    p0 ≤ tOff ∧ payload.length = tOff - p0 ∧ out.length = buckets.length ∧
    payload = bucketsPayload info buckets ∧
    (∀ (i : Nat) (b : Bucket κ δ), buckets[i]? = some b → b.head = [] →
      out[i]? = some b) ∧
    (∀ (i : Nat) (b : Bucket κ δ), buckets[i]? = some b → b.head ≠ [] →
      ∃ o A B, out[i]? = some ⟨o, b.head, b.length⟩ ∧ o ≠ 0 ∧
        payload = A ++ (bucketBytes info b ++ B) ∧ o = p0 + A.length) := by
  intro buckets
  induction buckets with
  | nil =>
    intro p0 tOff payload out h
    unfold emitPayload at h
    simp only [Option.some_inj, Prod.mk.injEq] at h
    obtain ⟨h1, h2, h3⟩ := h
    subst h1; subst h2; subst h3
    refine ⟨Nat.le_refl _, by simp, rfl, rfl, ?_, ?_⟩ <;> intro i b hb <;> simp at hb
  | cons b bs ih =>
    intro p0 tOff payload out h
    cases hh : b.head with
    | nil =>
      unfold emitPayload at h
      rw [hh] at h
      simp only at h
      rw [Option.map_eq_some'] at h
      obtain ⟨⟨t1, pl1, out1⟩, hr, heq⟩ := h
      simp only [Prod.mk.injEq] at heq
      obtain ⟨h1, h2, h3⟩ := heq
      subst h1; subst h2; subst h3
      obtain ⟨ihle, ihlen, ihout, ihpl, ihemp, ihne⟩ := ih p0 t1 pl1 out1 hr
      refine ⟨ihle, ihlen, by simp [ihout], ?_, ?_, ?_⟩
      · unfold bucketsPayload
        simp only [List.map_cons, List.flatten_cons, hh, List.isEmpty_nil,
          if_pos]
        rw [ihpl]
        rfl
      · intro i bi hbi hbe
        cases i with
        | zero =>
          simp only [List.getElem?_cons_zero, Option.some_inj] at hbi
          subst hbi
          simp
        | succ j =>
          simp only [List.getElem?_cons_succ] at hbi ⊢
          exact ihemp j bi hbi hbe
      · intro i bi hbi hbe
        cases i with
        | zero =>
          simp only [List.getElem?_cons_zero, Option.some_inj] at hbi
          subst hbi
          exact absurd hh hbe
        | succ j =>
          simp only [List.getElem?_cons_succ] at hbi ⊢
          exact ihne j bi hbi hbe
    | cons x xs =>
      unfold emitPayload at h
      rw [hh] at h
      simp only at h
      by_cases hp0 : p0 = 0
      · rw [if_pos hp0] at h; simp at h
      rw [if_neg hp0] at h
      by_cases hbl : b.length = 0
      · rw [if_pos hbl] at h; simp at h
      rw [if_neg hbl] at h
      rw [Option.map_eq_some'] at h
      obtain ⟨⟨t1, pl1, out1⟩, hr, heq⟩ := h
      simp only [Prod.mk.injEq] at heq
      obtain ⟨h1, h2, h3⟩ := heq
      subst h1; subst h2; subst h3
      obtain ⟨ihle, ihlen, ihout, ihpl, ihemp, ihne⟩ :=
        ih (p0 + (bucketBytes info b).length) t1 pl1 out1 hr
      have hble : p0 ≤ t1 := by omega
      refine ⟨hble, by simp; omega, by simp [ihout], ?_, ?_, ?_⟩
      · rw [ihpl]
        unfold bucketsPayload
        rw [List.map_cons, List.flatten_cons, hh]
        simp [List.isEmpty_cons]
      · intro i bi hbi hbe
        cases i with
        | zero =>
          simp only [List.getElem?_cons_zero, Option.some_inj] at hbi
          subst hbi
          exact absurd hh (by simp [hbe])
        | succ j =>
          simp only [List.getElem?_cons_succ] at hbi ⊢
          exact ihemp j bi hbi hbe
      · intro i bi hbi hbe
        cases i with
        | zero =>
          simp only [List.getElem?_cons_zero, Option.some_inj] at hbi
          subst hbi
          refine ⟨p0, [], pl1, ?_, hp0, by simp, by simp⟩
          simp [← hh]
        | succ j =>
          simp only [List.getElem?_cons_succ] at hbi ⊢
          obtain ⟨o, A, B, ho1, ho2, ho3, ho4⟩ := ihne j bi hbi hbe
          refine ⟨o, bucketBytes info b ++ A, B, ho1, ho2, ?_, ?_⟩
          · rw [ho3]; simp [List.append_assoc]
          · rw [ho4]; simp; omega

end ODHT

/-! ## The chain walk of `find` under the integer codec -/

namespace ODHT

theorem entryBytes_int (it : Item Nat Nat) :
    entryBytes intWInfo it =
      toLE32 it.hash ++ (toLE32 it.key ++ toLE32 it.data) := by
  simp [entryBytes, intWInfo]

theorem entryBytes_int_length (it : Item Nat Nat) :
    (entryBytes intWInfo it).length = 12 := by
  rw [entryBytes_int]
  simp [toLE32]

/-- One walk of the collision chain: the loop of `find`, run over the bytes
    of a chain segment with the integer codec, either reports no match (and
    indeed no item of the segment has the probed key) or stops at an item
    with the probed key and hands back the position of its value bytes. -/
theorem findLoop_int (k : Nat) (hk : k < 4294967296) :
    ∀ (items : List (Item Nat Nat)) (pre suf : List Nat),
    (∀ it ∈ items, ItemWFInt it) →
    (findLoop (pre ++ ((items.map (entryBytes intWInfo)).flatten ++ suf))
        intRKDL intRInfo k k items.length pre.length = none ∧
      ∀ it ∈ items, it.key ≠ k) ∨
    (∃ q it, it ∈ items ∧ it.key = k ∧
      findLoop (pre ++ ((items.map (entryBytes intWInfo)).flatten ++ suf))
        intRKDL intRInfo k k items.length pre.length =
        some ⟨k, q, 4, intRInfo⟩ ∧
      readLE32 (pre ++ ((items.map (entryBytes intWInfo)).flatten ++ suf)) q =
        it.data) := by
  intro items
  induction items with
  | nil =>
    intro pre suf _
    left
    constructor
    · rfl
    · intro it hit; simp at hit
  | cons it its ih =>
    intro pre suf hwf
    obtain ⟨hhk, hklt, hdlt⟩ := hwf it (List.mem_cons_self it its)
    have hwf' : ∀ x ∈ its, ItemWFInt x := fun x hx => hwf x (List.mem_cons_of_mem it hx)
    set bytes := pre ++ (((it :: its).map (entryBytes intWInfo)).flatten ++ suf)
      with hbytes
    have hshape1 : bytes = pre ++ (toLE32 it.hash ++
        (toLE32 it.key ++ (toLE32 it.data ++
          ((its.map (entryBytes intWInfo)).flatten ++ suf)))) := by
      rw [hbytes]
      simp [entryBytes_int, List.append_assoc]
    have hshape2 : bytes = (pre ++ toLE32 it.hash) ++ (toLE32 it.key ++
        (toLE32 it.data ++ ((its.map (entryBytes intWInfo)).flatten ++ suf))) := by
      rw [hshape1]; simp [List.append_assoc]
    have hshape3 : bytes = (pre ++ toLE32 it.hash ++ toLE32 it.key) ++
        (toLE32 it.data ++ ((its.map (entryBytes intWInfo)).flatten ++ suf)) := by
      rw [hshape1]; simp [List.append_assoc]
    have hshape4 : bytes = (pre ++ entryBytes intWInfo it) ++
        ((its.map (entryBytes intWInfo)).flatten ++ suf) := by
      rw [hbytes]
      simp [entryBytes_int, List.append_assoc]
    have hreadHash : readLE32 bytes pre.length = it.key := by
      rw [readLE32_at' bytes pre.length it.hash pre _ hshape1 rfl, hhk,
        Nat.mod_eq_of_lt hklt]
    have hreadKey : readLE32 bytes (pre.length + 4) = it.key := by
      have hlen : pre.length + 4 = (pre ++ toLE32 it.hash).length := by
        simp [toLE32]
      rw [readLE32_at' bytes (pre.length + 4) it.key (pre ++ toLE32 it.hash) _
        hshape2 hlen, Nat.mod_eq_of_lt hklt]
    have hreadData : readLE32 bytes (pre.length + 8) = it.data := by
      have hlen : pre.length + 8 = (pre ++ toLE32 it.hash ++ toLE32 it.key).length := by
        simp [toLE32]
      rw [readLE32_at' bytes (pre.length + 8) it.data
        (pre ++ toLE32 it.hash ++ toLE32 it.key) _ hshape3 hlen,
        Nat.mod_eq_of_lt hdlt]
    have hstep : findLoop bytes intRKDL intRInfo k k (it :: its).length pre.length =
        if it.key ≠ k then
          findLoop bytes intRKDL intRInfo k k its.length (pre.length + 4 + (4 + 4))
        else if (it.key == k) then some ⟨it.key, pre.length + 4 + 4, 4, intRInfo⟩
        else findLoop bytes intRKDL intRInfo k k its.length (pre.length + 4 + (4 + 4)) := by
      show findLoop bytes intRKDL intRInfo k k (its.length + 1) pre.length = _
      rw [findLoop]
      simp only [intRKDL, intRInfo, hreadHash, hreadKey]
    by_cases hkey : it.key = k
    · right
      refine ⟨pre.length + 4 + 4, it, List.mem_cons_self it its, hkey, ?_, ?_⟩
      · rw [hstep, if_neg (by simp [hkey]), if_pos (by simp [hkey]), hkey]
      · have : pre.length + 4 + 4 = pre.length + 8 := by omega
        rw [this, hreadData]
    · have hpos : pre.length + 4 + (4 + 4) = (pre ++ entryBytes intWInfo it).length := by
        simp only [List.length_append, entryBytes_int_length]
      have hrec := ih (pre ++ entryBytes intWInfo it)
        suf hwf'
      rw [← hshape4] at hrec
      rw [← hpos] at hrec
      rcases hrec with ⟨hnone, hall⟩ | ⟨q, it', hmem, hkey', heq, hread⟩
      · left
        constructor
        · rw [hstep, if_pos hkey]
          exact hnone
        · intro x hx
          rcases List.mem_cons.1 hx with h | h
          · subst h; exact hkey
          · exact hall x h
      · right
        refine ⟨q, it', List.mem_cons_of_mem it hmem, hkey', ?_, ?_⟩
        · rw [hstep, if_pos hkey]
          exact heq
        · exact hread

end ODHT

/-! ## Decomposition of `Emit` and membership helpers -/

namespace ODHT

theorem Emit_eq (info : WInfo κ δ) (sink : List Nat) (g : Generator κ δ)
    (stream : List Nat) (dirOff : Nat)
    (h : Emit info sink g = some (stream, dirOff)) :
    ∃ t0 payload out,
      emitPayload info sink.length g.buckets = some (t0, payload, out) ∧
      dirOff = t0 + offsetToAlignment t0 4 ∧
      stream = sink ++ payload ++
        List.replicate (offsetToAlignment t0 4) 0 ++
        (toLE32 g.numBuckets ++ toLE32 g.numEntries ++
          (out.map fun b => toLE32 b.off).flatten) := by
  unfold Emit at h
  cases hp : emitPayload info sink.length g.buckets with
  | none => rw [hp] at h; simp at h
  | some r =>
    obtain ⟨t0, payload, out⟩ := r
    rw [hp] at h
    simp only [Option.some_inj, Prod.mk.injEq] at h
    obtain ⟨h1, h2⟩ := h
    exact ⟨t0, payload, out, rfl, h2.symm, h1.symm⟩

theorem genItems_init : genItems (initGenerator κ δ) = [] := by
  simp [genItems, initGenerator, List.map_replicate]

theorem mem_chain_mem_genItems (g : Generator κ δ) (i : Nat) (b : Bucket κ δ)
    (hb : g.buckets[i]? = some b) (x : Item κ δ) (hx : x ∈ b.head) :
    x ∈ genItems g := by
  unfold genItems
  rw [List.mem_flatten]
  exact ⟨b.head, List.mem_map_of_mem Bucket.head (List.getElem?_mem hb), hx⟩

theorem genItems_mem_bucket (g : Generator κ δ) (x : Item κ δ)
    (hx : x ∈ genItems g) :
    ∃ (i : Nat) (b : Bucket κ δ), g.buckets[i]? = some b ∧ x ∈ b.head := by
  unfold genItems at hx
  rw [List.mem_flatten] at hx
  obtain ⟨l, hl, hxl⟩ := hx
  rw [List.mem_map] at hl
  obtain ⟨b, hb, rfl⟩ := hl
  obtain ⟨i, hi⟩ := List.getElem?_of_mem hb
  exact ⟨i, b, hi, hxl⟩

theorem chain_length_le (g : Generator κ δ) (i : Nat) (b : Bucket κ δ)
    (hb : g.buckets[i]? = some b) :
    b.head.length ≤ (genItems g).length := by
  unfold genItems
  rw [List.length_flatten]
  have hmem : b.head ∈ g.buckets.map Bucket.head :=
    List.mem_map_of_mem Bucket.head (List.getElem?_mem hb)
  have hmem2 : b.head.length ∈ (g.buckets.map Bucket.head).map List.length :=
    List.mem_map_of_mem List.length hmem
  exact List.le_sum_of_mem hmem2

/-- Items of a generator built from the integer codec and 32-bit pairs are
    well formed in the sense of `ItemWFInt`. -/
theorem genItems_wfInt (pairs : List (Nat × Nat))
    (hb : ∀ p ∈ pairs, p.1 < 4294967296 ∧ p.2 < 4294967296) (x : Item Nat Nat)
    (hx : x ∈ genItems (insertList intWInfo (initGenerator Nat Nat) pairs)) :
    ItemWFInt x ∧ (x.key, x.data) ∈ pairs := by
  have hperm := insertList_items intWInfo pairs (initGenerator Nat Nat) genWF_init
  rw [genItems_init, List.append_nil] at hperm
  have hx2 : x ∈ pairs.map (itemOfPair intWInfo) := hperm.mem_iff.1 hx
  rw [List.mem_map] at hx2
  obtain ⟨p, hp, rfl⟩ := hx2
  obtain ⟨h1, h2⟩ := hb p hp
  refine ⟨⟨?_, ?_, ?_⟩, ?_⟩
  · show intWInfo.ComputeHash p.1 % 4294967296 = p.1
    show p.1 % 4294967296 = p.1
    exact Nat.mod_eq_of_lt h1
  · exact h1
  · exact h2
  · exact hp

end ODHT

namespace ODHT

/-- Positional form of `readLE32_cells`. -/
theorem readLE32_cells' (bs : List Nat) (p : Nat) (offs : List Nat) (i : Nat)
    (pre suf : List Nat) (hi : i < offs.length)
    (hbs : bs = pre ++ ((offs.map toLE32).flatten ++ suf))
    (hp : p = pre.length + 4 * i) :
    readLE32 bs p = offs.getD i 0 % 4294967296 := by
  subst hbs; subst hp
  exact readLE32_cells offs i hi pre suf

theorem flatten_toLE32_length (l : List (Bucket κ δ)) :
    ((l.map fun b => toLE32 b.off).flatten).length = 4 * l.length := by
  induction l with
  | nil => rfl
  | cons b bs ih =>
    rw [List.map_cons, List.flatten_cons, List.length_append, ih,
      toLE32_length, List.length_cons]
    omega

end ODHT

/-! ## Behaviour of `find` on an emitted table (integer codec) -/

namespace ODHT

/-- Unfolding of `find` on a reader literal with the integer codec. -/
theorem find_int_unfold (stream : List Nat) (NB NE dpos k : Nat) :
    find (⟨NB, NE, dpos, stream, intRKDL, intRInfo⟩ :
        OnDiskChainedHashTable Nat Nat Nat) k none =
      (if readLE32 stream (dpos + 4 * ((k % 4294967296) &&& (NB - 1))) = 0
       then none
       else findLoop stream intRKDL intRInfo k (k % 4294967296)
        (readLE16 stream
          (readLE32 stream (dpos + 4 * ((k % 4294967296) &&& (NB - 1)))))
        (readLE32 stream (dpos + 4 * ((k % 4294967296) &&& (NB - 1))) + 2)) :=
  rfl

theorem find_spec (pairs : List (Nat × Nat)) (pre stream : List Nat)
    (dirOff k : Nat)
    (hb : ∀ p ∈ pairs, p.1 < 4294967296 ∧ p.2 < 4294967296)
    (hk : k < 4294967296)
    (hcnt : pairs.length < 536870912)
    (hpre : pre ≠ [])
    (hE : Emit intWInfo pre (insertList intWInfo (initGenerator Nat Nat) pairs)
      = some (stream, dirOff))
    (hsz : stream.length < 4294967296) :
    ∃ ht, Create stream dirOff intRKDL intRInfo = some ht ∧
      (k ∉ pairs.map Prod.fst → find ht k none = none) ∧
      (k ∈ pairs.map Prod.fst → pairs.length < 65536 →
        ∃ fnd, find ht k none = some fnd ∧ fnd.key = k ∧
          (k, derefIter stream fnd) ∈ pairs) := by
  set g := insertList intWInfo (initGenerator Nat Nat) pairs with hg
  have hwfg : GenWF g := insertList_wf intWInfo pairs _ genWF_init
  obtain ⟨⟨e, he⟩, hblen, hcounter, hoffzero, hplaced⟩ := hwfg
  have hNBpos : 0 < g.numBuckets := by
    rw [he]; exact Nat.pos_pow_of_pos e (by omega)
  have hNE : g.numEntries = pairs.length := by
    rw [hg, insertList_numEntries]
    simp [initGenerator]
  have hNBbound : 3 * g.numBuckets ≤ 8 * pairs.length + 192 := by
    have := insertList_bound intWInfo pairs (initGenerator Nat Nat)
      (by simp [initGenerator])
    rw [← hg, hNE] at this
    exact this
  have hNB32 : g.numBuckets < 4294967296 := by omega
  have hitems := insertList_items intWInfo pairs (initGenerator Nat Nat)
    genWF_init
  rw [genItems_init, List.append_nil, ← hg] at hitems
  have hlenItems : (genItems g).length = pairs.length := by
    rw [hitems.length_eq, List.length_map]
  obtain ⟨t0, payload, out, hp, hdir, hstream⟩ := Emit_eq _ _ _ _ _ hE
  obtain ⟨hle, hplen, houtlen, _, hemp, hne⟩ :=
    emitPayload_sound intWInfo g.buckets pre.length t0 payload out hp
  have hpre0 : 0 < pre.length := List.length_pos.2 hpre
  have hpad : dirOff = t0 + offsetToAlignment t0 4 := hdir
  have hdirne : dirOff ≠ 0 := by
    have : 0 ≤ offsetToAlignment t0 4 := Nat.zero_le _
    omega
  have hdir4 : dirOff % 4 = 0 := by
    rw [hdir]; unfold offsetToAlignment; omega
  have hCreate : Create stream dirOff intRKDL intRInfo =
      some ⟨readLE32 stream dirOff, readLE32 stream (dirOff + 4), dirOff + 8,
        stream, intRKDL, intRInfo⟩ := by
    unfold Create
    rw [if_neg hdirne, if_neg (by simp [hdir4])]
  have hprepay : (pre ++ payload ++
      List.replicate (offsetToAlignment t0 4) 0).length = dirOff := by
    simp only [List.length_append, List.length_replicate]
    omega
  have hNBread : readLE32 stream dirOff = g.numBuckets := by
    rw [readLE32_at' stream dirOff g.numBuckets
      (pre ++ payload ++ List.replicate (offsetToAlignment t0 4) 0)
      (toLE32 g.numEntries ++ (out.map fun b => toLE32 b.off).flatten)
      (by rw [hstream]; simp [List.append_assoc]) hprepay.symm]
    exact Nat.mod_eq_of_lt hNB32
  have hkmod : k % 4294967296 = k := Nat.mod_eq_of_lt hk
  set idx := k &&& (g.numBuckets - 1) with hidxdef
  have hidx : idx = k % g.numBuckets := by
    rw [hidxdef, he]
    exact Nat.and_pow_two_sub_one_eq_mod k e
  have hidxlt : idx < g.numBuckets := by
    rw [hidx]; exact Nat.mod_lt _ hNBpos
  have hidxlen : idx < g.buckets.length := by rw [hblen]; exact hidxlt
  obtain ⟨b, hbux⟩ : ∃ b, g.buckets[idx]? = some b :=
    ⟨_, List.getElem?_eq_getElem hidxlen⟩
  have houtb : ∀ bo, out[idx]? = some bo →
      (out.map Bucket.off).getD idx 0 = bo.off := by
    intro bo hbo
    rw [List.getD_eq_getElem?_getD, List.getElem?_map, hbo]
    rfl
  have hstreamlen : stream.length =
      dirOff + 8 + 4 * out.length := by
    rw [hstream]
    simp only [List.length_append, List.length_replicate, toLE32_length,
      flatten_toLE32_length]
    omega
  have hcells : readLE32 stream (dirOff + 8 + 4 * idx) =
      (out.map Bucket.off).getD idx 0 % 4294967296 := by
    refine readLE32_cells' stream (dirOff + 8 + 4 * idx) (out.map Bucket.off)
      idx
      (pre ++ payload ++ List.replicate (offsetToAlignment t0 4) 0 ++
        toLE32 g.numBuckets ++ toLE32 g.numEntries) [] ?_ ?_ ?_
    · rw [List.length_map, houtlen, hblen]; exact hidxlt
    · rw [hstream]
      simp [List.append_assoc, List.map_map, Function.comp_def]
    · simp only [List.length_append, List.length_replicate, toLE32_length]
      omega
  have hfind : find (⟨readLE32 stream dirOff, readLE32 stream (dirOff + 4),
      dirOff + 8, stream, intRKDL, intRInfo⟩ :
        OnDiskChainedHashTable Nat Nat Nat) k none =
      (if readLE32 stream (dirOff + 8 + 4 * idx) = 0 then none
       else findLoop stream intRKDL intRInfo k k
        (readLE16 stream (readLE32 stream (dirOff + 8 + 4 * idx)))
        (readLE32 stream (dirOff + 8 + 4 * idx) + 2)) := by
    rw [find_int_unfold, hNBread, hkmod, ← hidxdef]
  refine ⟨_, hCreate, ?_, ?_⟩
  · -- the key was never inserted: find returns the end iterator
    intro hkout
    rw [hfind]
    cases hhead : b.head with
    | nil =>
      have hob := hemp idx b hbux hhead
      rw [hcells, houtb b hob, hoffzero idx b hbux]
      simp
    | cons x xs =>
      obtain ⟨o, A, B, hob, hone, hpayA, hoA⟩ := hne idx b hbux (by simp [hhead])
      have hcellv : readLE32 stream (dirOff + 8 + 4 * idx) = o := by
        rw [hcells, houtb _ hob]
        have ho32 : o < 4294967296 := by
          have hAle : A.length ≤ payload.length := by
            rw [hpayA]; simp
          omega
        exact Nat.mod_eq_of_lt ho32
      rw [hcellv, if_neg hone]
      -- the length prefix read from the stream
      have hlenb : b.length = b.head.length := hcounter idx b hbux
      have hchainle : b.head.length ≤ pairs.length := by
        have := chain_length_le g idx b hbux
        omega
      have hlenread : readLE16 stream o = b.head.length % 65536 := by
        rw [readLE16_at' stream o b.length (pre ++ A)
          ((b.head.map (entryBytes intWInfo)).flatten ++
            (B ++ List.replicate (offsetToAlignment t0 4) 0 ++
              (toLE32 g.numBuckets ++ toLE32 g.numEntries ++
                (out.map fun bb => toLE32 bb.off).flatten)))
          (by rw [hstream, hpayA]
              simp [bucketBytes, List.append_assoc])
          (by simp [hoA]), hlenb]
      set len := b.head.length % 65536 with hlendef
      have hlenle : len ≤ b.head.length := Nat.mod_le _ _
      have htakelen : (b.head.take len).length = len := by
        rw [List.length_take]
        omega
      have hsplit : (b.head.map (entryBytes intWInfo)).flatten =
          ((b.head.take len).map (entryBytes intWInfo)).flatten ++
          ((b.head.drop len).map (entryBytes intWInfo)).flatten := by
        rw [← List.flatten_append, ← List.map_append, List.take_append_drop]
      have hwalkwf : ∀ it ∈ b.head.take len, ItemWFInt it := by
        intro it hit
        exact (genItems_wfInt pairs hb it
          (mem_chain_mem_genItems g idx b hbux it
            (List.mem_of_mem_take hit))).1
      have hbytes : stream = (pre ++ A ++ toLE16 b.length) ++
          (((b.head.take len).map (entryBytes intWInfo)).flatten ++
            (((b.head.drop len).map (entryBytes intWInfo)).flatten ++
              (B ++ List.replicate (offsetToAlignment t0 4) 0 ++
                (toLE32 g.numBuckets ++ toLE32 g.numEntries ++
                  (out.map fun bb => toLE32 bb.off).flatten)))) := by
        rw [hstream, hpayA, bucketBytes]
        rw [hsplit]
        simp [List.append_assoc]
      have hpos : o + 2 = (pre ++ A ++ toLE16 b.length).length := by
        simp [toLE16, hoA]
        omega
      have hwalk := findLoop_int k hk (b.head.take len)
        (pre ++ A ++ toLE16 b.length)
        (((b.head.drop len).map (entryBytes intWInfo)).flatten ++
          (B ++ List.replicate (offsetToAlignment t0 4) 0 ++
            (toLE32 g.numBuckets ++ toLE32 g.numEntries ++
              (out.map fun bb => toLE32 bb.off).flatten))) hwalkwf
      rw [← hbytes, ← hpos, htakelen] at hwalk
      rw [hlenread]
      rcases hwalk with ⟨hnone, _⟩ | ⟨q, it', hmem, hkey', _, _⟩
      · exact hnone
      · exfalso
        have hinpairs := (genItems_wfInt pairs hb it'
          (mem_chain_mem_genItems g idx b hbux it'
            (List.mem_of_mem_take hmem))).2
        apply hkout
        rw [List.mem_map]
        exact ⟨(it'.key, it'.data), hinpairs, hkey'⟩
  · -- the key was inserted: find returns its value
    intro hkin hcnt16
    obtain ⟨p0, hp0, hp0k⟩ := List.mem_map.1 hkin
    have hx : itemOfPair intWInfo p0 ∈ genItems g :=
      hitems.mem_iff.2 (List.mem_map_of_mem _ hp0)
    obtain ⟨j, bj, hbj, hxbj⟩ := genItems_mem_bucket g _ hx
    have hxhash : (itemOfPair intWInfo p0).hash = k := by
      show intWInfo.ComputeHash p0.1 % 4294967296 = k
      show p0.1 % 4294967296 = k
      rw [hp0k, hkmod]
    have hj : j = idx := by
      have := hplaced j bj hbj _ hxbj
      rw [hxhash] at this
      rw [← this, hidxdef]
    subst hj
    have hbjb : bj = b := by
      rw [hbux] at hbj
      exact (Option.some_inj.1 hbj).symm
    rw [hbjb] at hxbj
    have hhead : b.head ≠ [] := by
      intro hcon
      rw [hcon] at hxbj
      simp at hxbj
    obtain ⟨o, A, B, hob, hone, hpayA, hoA⟩ := hne idx b hbux hhead
    have hcellv : readLE32 stream (dirOff + 8 + 4 * idx) = o := by
      rw [hcells, houtb _ hob]
      have ho32 : o < 4294967296 := by
        have hAle : A.length ≤ payload.length := by
          rw [hpayA]; simp
        omega
      exact Nat.mod_eq_of_lt ho32
    have hlenb : b.length = b.head.length := hcounter idx b hbux
    have hchainle : b.head.length ≤ pairs.length := by
      have := chain_length_le g idx b hbux
      omega
    have hlen16 : b.head.length < 65536 := by omega
    have hlenread : readLE16 stream o = b.head.length := by
      rw [readLE16_at' stream o b.length (pre ++ A)
        ((b.head.map (entryBytes intWInfo)).flatten ++
          (B ++ List.replicate (offsetToAlignment t0 4) 0 ++
            (toLE32 g.numBuckets ++ toLE32 g.numEntries ++
              (out.map fun bb => toLE32 bb.off).flatten)))
        (by rw [hstream, hpayA]
            simp [bucketBytes, List.append_assoc])
        (by simp [hoA]), hlenb]
      exact Nat.mod_eq_of_lt hlen16
    have hwalkwf : ∀ it ∈ b.head, ItemWFInt it := by
      intro it hit
      exact (genItems_wfInt pairs hb it
        (mem_chain_mem_genItems g idx b hbux it hit)).1
    have hbytes : stream = (pre ++ A ++ toLE16 b.length) ++
        ((b.head.map (entryBytes intWInfo)).flatten ++
          (B ++ List.replicate (offsetToAlignment t0 4) 0 ++
            (toLE32 g.numBuckets ++ toLE32 g.numEntries ++
              (out.map fun bb => toLE32 bb.off).flatten))) := by
      rw [hstream, hpayA, bucketBytes]
      simp [List.append_assoc]
    have hpos : o + 2 = (pre ++ A ++ toLE16 b.length).length := by
      simp [toLE16, hoA]
      omega
    have hwalk := findLoop_int k hk b.head (pre ++ A ++ toLE16 b.length)
      (B ++ List.replicate (offsetToAlignment t0 4) 0 ++
        (toLE32 g.numBuckets ++ toLE32 g.numEntries ++
          (out.map fun bb => toLE32 bb.off).flatten)) hwalkwf
    rw [← hbytes, ← hpos] at hwalk
    rcases hwalk with ⟨_, hall⟩ | ⟨q, it', hmem, hkey', heq, hread⟩
    · exfalso
      exact hall _ hxbj (by
        show (itemOfPair intWInfo p0).key = k
        show p0.1 = k
        exact hp0k)
    · refine ⟨⟨k, q, 4, intRInfo⟩, ?_, rfl, ?_⟩
      · rw [hfind, hcellv, if_neg hone, hlenread]
        exact heq
      · have hderef : derefIter stream ⟨k, q, 4, intRInfo⟩ =
            readLE32 stream q := rfl
        rw [hderef, hread]
        have hinpairs := (genItems_wfInt pairs hb it'
          (mem_chain_mem_genItems g idx b hbux it' hmem)).2
        rw [← hkey']
        exact hinpairs

end ODHT

/-! ## Claims C1 and C2 -/

namespace ODHT

set_option maxRecDepth 100000 in
/-- C1, counterexample: the claim says the dereferenced value is the
    most-recently-inserted value for the key.  With `cexPairs` the key 0 is
    inserted with value 1 and then value 2; the 48th insert triggers a
    resize, whose re-insertion loop reverses the chain, so the reader finds
    the older entry first: the full pipeline dereferences to 1, while the
    most recent value for key 0 is 2. -/
theorem claim_C1_counterexample :
    cexDeref = some 1 ∧ mostRecent 0 cexPairs = some 2 := by
  constructor
  · decide
  · decide

/-- C1, amended: after any insert sequence (32-bit keys and values, fewer
    than 2^16 entries, non-empty prefix) and a successful `Emit`, a reader
    over the emitted bytes answers `find k` for every inserted key `k` with
    an iterator whose dereference is the value of ONE OF the insertions of
    `k`; in particular it is the value of the unique insertion when `k` was
    inserted exactly once.  (The original claim required the
    most-recently-inserted value; `claim_C1_counterexample` refutes that.) -/
theorem claim_C1 (pairs : List (Nat × Nat)) (pre stream : List Nat)
    (dirOff k : Nat)
    (hb : ∀ p ∈ pairs, p.1 < 4294967296 ∧ p.2 < 4294967296)
    (hcnt : pairs.length < 65536)
    (hpre : pre ≠ [])
    (hk : k ∈ pairs.map Prod.fst)
    (hE : Emit intWInfo pre (insertList intWInfo (initGenerator Nat Nat) pairs)
      = some (stream, dirOff))
    (hsz : stream.length < 4294967296) :
    ∃ ht fnd, Create stream dirOff intRKDL intRInfo = some ht ∧
      find ht k none = some fnd ∧ fnd.key = k ∧
      (k, derefIter stream fnd) ∈ pairs ∧
      (∀ v, pairs.filter (fun p => p.1 == k) = [(k, v)] →
        derefIter stream fnd = v) := by
  have hklt : k < 4294967296 := by
    obtain ⟨p0, hp0, hp0k⟩ := List.mem_map.1 hk
    rw [← hp0k]
    exact (hb p0 hp0).1
  obtain ⟨ht, hC, _, hfound⟩ := find_spec pairs pre stream dirOff k hb hklt
    (by omega) hpre hE hsz
  obtain ⟨fnd, h1, h2, h3⟩ := hfound hk hcnt
  refine ⟨ht, fnd, hC, h1, h2, h3, ?_⟩
  intro v hfl
  have hmemf : (k, derefIter stream fnd) ∈
      pairs.filter (fun p => p.1 == k) := by
    rw [List.mem_filter]
    exact ⟨h3, by simp⟩
  rw [hfl] at hmemf
  simp only [List.mem_singleton, Prod.mk.injEq] at hmemf
  exact hmemf.2

set_option maxRecDepth 100000 in
/-- Witness for C1 at the single insert `(7, 42)` of scenario 2. -/
theorem claim_C1_witness :
    ∃ ht fnd, Create w1stream 24 intRKDL intRInfo = some ht ∧
      find ht 7 none = some fnd ∧ fnd.key = 7 ∧
      (7, derefIter w1stream fnd) ∈ [((7 : Nat), (42 : Nat))] ∧
      (∀ v, [((7 : Nat), (42 : Nat))].filter (fun p => p.1 == 7) = [(7, v)] →
        derefIter w1stream fnd = v) :=
  claim_C1 [(7, 42)] (List.replicate 8 0) w1stream 24 7
    (by decide) (by decide) (by decide) (by decide) (by decide) (by decide)

/-- C2: for a key that was never inserted (any 32-bit key, any insert
    sequence of 32-bit pairs, non-empty prefix), `find` on a reader over
    the emitted bytes returns the end iterator (`none`); `find` is a total
    function, so the lookup itself cannot fail. -/
theorem claim_C2 (pairs : List (Nat × Nat)) (pre stream : List Nat)
    (dirOff k : Nat)
    (hb : ∀ p ∈ pairs, p.1 < 4294967296 ∧ p.2 < 4294967296)
    (hk : k < 4294967296)
    (hnk : k ∉ pairs.map Prod.fst)
    (hcnt : pairs.length < 536870912)
    (hpre : pre ≠ [])
    (hE : Emit intWInfo pre (insertList intWInfo (initGenerator Nat Nat) pairs)
      = some (stream, dirOff))
    (hsz : stream.length < 4294967296) :
    ∃ ht, Create stream dirOff intRKDL intRInfo = some ht ∧
      find ht k none = none := by
  obtain ⟨ht, hC, hnone, _⟩ := find_spec pairs pre stream dirOff k hb hk hcnt
    hpre hE hsz
  exact ⟨ht, hC, hnone hnk⟩

set_option maxRecDepth 100000 in
/-- Witness for C2: looking up the absent key 0 in the scenario-2 table. -/
theorem claim_C2_witness :
    ∃ ht, Create w1stream 24 intRKDL intRInfo = some ht ∧
      find ht 0 none = none :=
  claim_C2 [(7, 42)] (List.replicate 8 0) w1stream 24 0
    (by decide) (by decide) (by decide) (by decide) (by decide) (by decide)
    (by decide)

end ODHT

/-! ## Claims C3, C9, C7, C6, C5 -/

namespace ODHT

set_option maxRecDepth 100000 in
/-- C3, counterexample: the claim dates the doubling to the 49th insert
    (`4·49 = 196 ≥ 3·64 = 192`).  In the code the comparison is `>=` and
    `NumEntries` is incremented before the check, so the resize fires
    during the 48th insert (`4·48 = 192 ≥ 192`): after inserting the 48
    keys 0..47 the bucket count is already 128, while after 47 inserts it
    is still 64. -/
theorem claim_C3_counterexample :
    (insertList intWInfo (initGenerator Nat Nat)
      ((List.range 47).map (fun i => (i, 0)))).numBuckets = 64 ∧
    (insertList intWInfo (initGenerator Nat Nat)
      ((List.range 48).map (fun i => (i, 0)))).numBuckets = 128 := by
  constructor
  · decide
  · decide

/-- C3, amended: an insert doubles `NumBuckets` exactly when
    `4·(NumEntries+1) ≥ 3·NumBuckets` (the counter is incremented before
    the check); the rehash of a resize preserves the multiset of stored
    items; consequently the load factor stays below 0.75 after every
    insert; and concretely, starting from 64 buckets the doubling to 128
    happens during the 48th insert (`4·48 = 192 ≥ 3·64 = 192`), not the
    49th. -/
theorem claim_C3 :
    (∀ (κ δ : Type) (info : WInfo κ δ) (g : Generator κ δ) (k : κ) (d : δ),
      (insert info g k d).numBuckets =
        if 4 * (g.numEntries + 1) ≥ 3 * g.numBuckets then g.numBuckets * 2
        else g.numBuckets) ∧
    (∀ (κ δ : Type) (g : Generator κ δ) (n : Nat), 0 < n →
      List.Perm (genItems (resize g n)) (genItems g)) ∧
    (∀ (κ δ : Type) (info : WInfo κ δ) (pairs : List (κ × δ)),
      4 * (insertList info (initGenerator κ δ) pairs).numEntries <
        3 * (insertList info (initGenerator κ δ) pairs).numBuckets) ∧
    ((insertList intWInfo (initGenerator Nat Nat)
        ((List.range 47).map (fun i => (i, 0)))).numBuckets = 64 ∧
      (insertList intWInfo (initGenerator Nat Nat)
        ((List.range 48).map (fun i => (i, 0)))).numBuckets = 128) := by
  refine ⟨?_, ?_, ?_, ?_⟩
  · intro κ δ info g k d
    unfold insert
    split <;> rfl
  · intro κ δ g n hn
    exact resize_items g n hn
  · intro κ δ info pairs
    have h := insertList_load info pairs (initGenerator κ δ)
      (by constructor <;> simp [initGenerator])
    exact h.2
  · constructor
    · set_option maxRecDepth 100000 in decide
    · set_option maxRecDepth 100000 in decide

set_option maxRecDepth 100000 in
/-- Witness for C3: the rehash-preservation conjunct at a concrete resize. -/
theorem claim_C3_witness :
    List.Perm (genItems (resize (initGenerator Nat Nat) 128))
      (genItems (initGenerator Nat Nat)) :=
  claim_C3.2.1 Nat Nat (initGenerator Nat Nat) 128 (by decide)

set_option maxRecDepth 100000 in
/-- C9, counterexample: with NO inserts and the sink at absolute offset 0,
    `Emit` does not fail any assertion (the offset-0 assert is only reached
    for non-empty buckets); it happily writes a directory at offset 0 and
    returns 0.  The claim, quantified over every builder, is therefore
    false for the empty builder. -/
theorem claim_C9_counterexample :
    Emit intWInfo [] (initGenerator Nat Nat) =
      some ([64, 0, 0, 0, 0, 0, 0, 0] ++ List.replicate 256 0, 0) := by
  decide

/-- C9, amended: restricted to builders holding at least one entry, `Emit`
    with the sink at absolute offset 0 fails the offset-0 assertion before
    any directory is produced (modelled as `none`). -/
theorem claim_C9 (κ δ : Type) (info : WInfo κ δ) (pairs : List (κ × δ))
    (hne : pairs ≠ []) :
    Emit info [] (insertList info (initGenerator κ δ) pairs) = none := by
  set g := insertList info (initGenerator κ δ) pairs with hg
  have hitems := insertList_items info pairs (initGenerator κ δ) genWF_init
  rw [genItems_init, List.append_nil, ← hg] at hitems
  have hlen : (genItems g).length = pairs.length := by
    rw [hitems.length_eq, List.length_map]
  have hpos : 0 < (genItems g).length := by
    rw [hlen]
    exact List.length_pos.2 hne
  obtain ⟨x, hx⟩ := List.exists_mem_of_length_pos hpos
  obtain ⟨i, b, hb, hxb⟩ := genItems_mem_bucket g x hx
  have hbne : ∃ bb ∈ g.buckets, bb.head ≠ [] := by
    refine ⟨b, List.getElem?_mem hb, ?_⟩
    intro hcon
    rw [hcon] at hxb
    simp at hxb
  unfold Emit
  rw [show ([] : List Nat).length = 0 from rfl,
    emitPayload_zero_none info g.buckets hbne]

/-- Witness for C9 at a single insert. -/
theorem claim_C9_witness :
    Emit intWInfo [] (insertList intWInfo (initGenerator Nat Nat) [(7, 42)]) =
      none :=
  claim_C9 Nat Nat intWInfo [(7, 42)] (by decide)

set_option maxRecDepth 100000 in
/-- C7: with an 8-byte zero prefix and no inserts, `Emit` returns
    directory offset 8 and writes exactly `40 00 00 00 00 00 00 00`
    (`NumBuckets = 64`, `NumEntries = 0`) followed by 64 zero bucket-offset
    cells; and every `find` on a reader constructed over these bytes
    returns the end iterator. -/
theorem claim_C7 :
    Emit intWInfo (List.replicate 8 0) (initGenerator Nat Nat) =
      some (emptyTableStream, 8) ∧
    Create emptyTableStream 8 intRKDL intRInfo =
      some ⟨64, 0, 16, emptyTableStream, intRKDL, intRInfo⟩ ∧
    ∀ k, find (⟨64, 0, 16, emptyTableStream, intRKDL, intRInfo⟩ :
        OnDiskChainedHashTable Nat Nat Nat) k none = none := by
  refine ⟨by decide, ?_, ?_⟩
  · show Create emptyTableStream 8 intRKDL intRInfo = _
    unfold Create
    rw [if_neg (by omega), if_neg (by omega)]
    have h1 : readLE32 emptyTableStream 8 = 64 := by decide
    have h2 : readLE32 emptyTableStream 12 = 0 := by decide
    rw [h1, h2]
  · intro k
    rw [find_int_unfold]
    have hidx : (k % 4294967296) &&& (64 - 1) < 64 :=
      lt_of_le_of_lt Nat.and_le_right (by omega)
    have hall : ∀ i, i < 64 → readLE32 emptyTableStream (16 + 4 * i) = 0 := by
      decide
    rw [hall _ hidx]
    simp

/-- C6: the directory offset returned by `Emit` is 4-byte aligned, is the
    least 4-byte-aligned offset that is at least `table_off` (the stream
    offset after the last payload byte), and every padding byte written
    between the payload and the directory is zero.  Stated for an arbitrary
    codec and builder state. -/
theorem claim_C6 (κ δ : Type) (info : WInfo κ δ) (pre : List Nat)
    (g : Generator κ δ) (stream : List Nat) (dirOff t0 : Nat)
    (payload : List Nat) (out : List (Bucket κ δ))
    (hP : emitPayload info pre.length g.buckets = some (t0, payload, out))
    (hE : Emit info pre g = some (stream, dirOff)) :
    dirOff % 4 = 0 ∧ t0 ≤ dirOff ∧
    (∀ m, m % 4 = 0 → t0 ≤ m → dirOff ≤ m) ∧
    (∀ i, t0 ≤ i → i < dirOff → byteAt stream i = 0) := by
  obtain ⟨t1, payload1, out1, hp1, hdir1, hstream1⟩ := Emit_eq _ _ _ _ _ hE
  rw [hP] at hp1
  simp only [Option.some_inj, Prod.mk.injEq] at hp1
  obtain ⟨rfl, rfl, rfl⟩ := hp1
  obtain ⟨hle, hplen, _, _, _, _⟩ :=
    emitPayload_sound info g.buckets pre.length t0 payload out hP
  have hoa : offsetToAlignment t0 4 = (t0 + 3) / 4 * 4 - t0 := rfl
  refine ⟨?_, ?_, ?_, ?_⟩
  · rw [hdir1, hoa]; omega
  · rw [hdir1, hoa]; omega
  · intro m hm4 hmt
    rw [hdir1, hoa]; omega
  · intro i hit hid
    have hsplit : stream = (pre ++ payload) ++
        (List.replicate (offsetToAlignment t0 4) 0 ++
          (toLE32 g.numBuckets ++ toLE32 g.numEntries ++
            (out.map fun b => toLE32 b.off).flatten)) := by
      rw [hstream1]; simp [List.append_assoc]
    have hlenpp : (pre ++ payload).length = t0 := by
      simp only [List.length_append]; omega
    rw [hsplit]
    unfold byteAt
    rw [List.getD_append_right _ _ _ _ (by omega : (pre ++ payload).length ≤ i),
      List.getD_append _ _ _ _ (by
        rw [List.length_replicate, hlenpp]
        rw [hdir1] at hid
        omega)]
    simp

set_option maxRecDepth 100000 in
/-- Witness for C6 at the empty table emitted after an 8-byte prefix. -/
theorem claim_C6_witness :
    (8 : Nat) % 4 = 0 ∧ (8 : Nat) ≤ 8 ∧
    (∀ m, m % 4 = 0 → 8 ≤ m → 8 ≤ m) ∧
    (∀ i, 8 ≤ i → i < 8 → byteAt emptyTableStream i = 0) :=
  claim_C6 Nat Nat intWInfo (List.replicate 8 0) (initGenerator Nat Nat)
    emptyTableStream 8 8 [] (List.replicate 64 ⟨0, [], 0⟩)
    (by decide) (by decide)

/-- C5: in the directory emitted after any insert sequence (fewer than
    2^29 inserts, so the 32-bit header fields do not truncate), the
    `NumBuckets` field is a power of two and the `NumEntries` field equals
    the number of `insert` calls.  Stated for an arbitrary codec. -/
theorem claim_C5 (κ δ : Type) (info : WInfo κ δ) (pairs : List (κ × δ))
    (pre stream : List Nat) (dirOff : Nat)
    (hcnt : pairs.length < 536870912)
    (hE : Emit info pre (insertList info (initGenerator κ δ) pairs) =
      some (stream, dirOff)) :
    (∃ e, readLE32 stream dirOff = 2 ^ e) ∧
    readLE32 stream (dirOff + 4) = pairs.length := by
  set g := insertList info (initGenerator κ δ) pairs with hg
  have hwfg : GenWF g := insertList_wf info pairs _ genWF_init
  obtain ⟨⟨e, he⟩, hblen, _, _, _⟩ := hwfg
  have hNE : g.numEntries = pairs.length := by
    rw [hg, insertList_numEntries]
    simp [initGenerator]
  have hNBbound : 3 * g.numBuckets ≤ 8 * pairs.length + 192 := by
    have := insertList_bound info pairs (initGenerator κ δ)
      (by simp [initGenerator])
    rw [← hg, hNE] at this
    exact this
  have hNB32 : g.numBuckets < 4294967296 := by omega
  have hNE32 : g.numEntries < 4294967296 := by omega
  obtain ⟨t0, payload, out, hp, hdir, hstream⟩ := Emit_eq _ _ _ _ _ hE
  obtain ⟨hle, hplen, _, _, _, _⟩ :=
    emitPayload_sound info g.buckets pre.length t0 payload out hp
  have hprepay : (pre ++ payload ++
      List.replicate (offsetToAlignment t0 4) 0).length = dirOff := by
    simp only [List.length_append, List.length_replicate]
    omega
  constructor
  · refine ⟨e, ?_⟩
    rw [readLE32_at' stream dirOff g.numBuckets
      (pre ++ payload ++ List.replicate (offsetToAlignment t0 4) 0)
      (toLE32 g.numEntries ++ (out.map fun b => toLE32 b.off).flatten)
      (by rw [hstream]; simp [List.append_assoc]) hprepay.symm,
      Nat.mod_eq_of_lt hNB32]
    exact he
  · rw [readLE32_at' stream (dirOff + 4) g.numEntries
      (pre ++ payload ++ List.replicate (offsetToAlignment t0 4) 0 ++
        toLE32 g.numBuckets)
      ((out.map fun b => toLE32 b.off).flatten)
      (by rw [hstream]; simp [List.append_assoc])
      (by simp only [List.length_append, List.length_replicate, toLE32_length]
          omega),
      Nat.mod_eq_of_lt hNE32]
    exact hNE

set_option maxRecDepth 100000 in
/-- Witness for C5 at the scenario-2 single-insert table. -/
theorem claim_C5_witness :
    (∃ e, readLE32 w1stream 24 = 2 ^ e) ∧ readLE32 w1stream (24 + 4) = 1 :=
  claim_C5 Nat Nat intWInfo [(7, 42)] (List.replicate 8 0) w1stream 24
    (by decide) (by decide)

end ODHT

/-! ## The payload walk of the iterable reader (integer codec) -/

namespace ODHT

theorem flatten_entryBytes_length (items : List (Item Nat Nat)) :
    ((items.map (entryBytes intWInfo)).flatten).length = 12 * items.length := by
  induction items with
  | nil => rfl
  | cons it its ih =>
    rw [List.map_cons, List.flatten_cons, List.length_append, ih,
      entryBytes_int_length, List.length_cons]
    omega

theorem bucketBytes_int_length (b : Bucket Nat Nat) :
    (bucketBytes intWInfo b).length = 2 + 12 * b.head.length := by
  rw [bucketBytes, List.length_append, flatten_entryBytes_length, toLE16_length]

theorem dataIterList_succ (bytes : List Nat)
    (rkdl : List Nat → Nat → Nat × Nat × Nat) (info : RInfo ικ εκ δ)
    (fuel p c m : Nat) :
    dataIterList bytes rkdl info (fuel + 1) ⟨p, c, m + 1⟩ =
      dataIterDeref bytes rkdl info ⟨p, c, m + 1⟩ ::
      dataIterList bytes rkdl info fuel
        (dataIterNext bytes rkdl ⟨p, c, m + 1⟩) := by
  rw [dataIterList]
  simp

/-- Walking the remaining entries of the current bucket: from a state whose
    per-bucket counter equals the number of remaining entries, the iterator
    yields exactly those entries' `(key, value)` pairs and stops at the next
    bucket boundary. -/
theorem dataIter_chain (items : List (Item Nat Nat)) :
    ∀ (pre suf : List Nat) (m : Nat),
    (∀ it ∈ items, ItemWFInt it) →
    items.length ≤ m →
    dataIterList (pre ++ ((items.map (entryBytes intWInfo)).flatten ++ suf))
      intRKDL pairRInfo m ⟨pre.length, items.length, m⟩ =
    items.map pairOfItem ++
      dataIterList (pre ++ ((items.map (entryBytes intWInfo)).flatten ++ suf))
        intRKDL pairRInfo (m - items.length)
        ⟨pre.length + 12 * items.length, 0, m - items.length⟩ := by
  induction items with
  | nil =>
    intro pre suf m _ _
    simp
  | cons it its ih =>
    intro pre suf m hwf hm
    obtain ⟨hhk, hklt, hdlt⟩ := hwf it (List.mem_cons_self it its)
    have hwf' : ∀ x ∈ its, ItemWFInt x :=
      fun x hx => hwf x (List.mem_cons_of_mem it hx)
    obtain ⟨mm, rfl⟩ : ∃ mm, m = mm + 1 := by
      rcases m with _ | mm
      · simp at hm
      · exact ⟨mm, rfl⟩
    set bytes := pre ++ (((it :: its).map (entryBytes intWInfo)).flatten ++ suf)
      with hbytes
    have hshape2 : bytes = (pre ++ toLE32 it.hash) ++ (toLE32 it.key ++
        (toLE32 it.data ++ ((its.map (entryBytes intWInfo)).flatten ++ suf))) := by
      rw [hbytes]
      simp [entryBytes_int, List.append_assoc]
    have hshape3 : bytes = (pre ++ toLE32 it.hash ++ toLE32 it.key) ++
        (toLE32 it.data ++ ((its.map (entryBytes intWInfo)).flatten ++ suf)) := by
      rw [hshape2]; simp [List.append_assoc]
    have hshape4 : bytes = (pre ++ entryBytes intWInfo it) ++
        ((its.map (entryBytes intWInfo)).flatten ++ suf) := by
      rw [hbytes]
      simp [entryBytes_int, List.append_assoc]
    have hreadKey : readLE32 bytes (pre.length + 4) = it.key := by
      have hlen : pre.length + 4 = (pre ++ toLE32 it.hash).length := by
        simp [toLE32]
      rw [readLE32_at' bytes (pre.length + 4) it.key (pre ++ toLE32 it.hash) _
        hshape2 hlen, Nat.mod_eq_of_lt hklt]
    have hreadData : readLE32 bytes (pre.length + 8) = it.data := by
      have hlen : pre.length + 8 =
          (pre ++ toLE32 it.hash ++ toLE32 it.key).length := by
        simp [toLE32]
      rw [readLE32_at' bytes (pre.length + 8) it.data
        (pre ++ toLE32 it.hash ++ toLE32 it.key) _ hshape3 hlen,
        Nat.mod_eq_of_lt hdlt]
    have hderef : dataIterDeref bytes intRKDL pairRInfo
        ⟨pre.length, (it :: its).length, mm + 1⟩ = pairOfItem it := by
      unfold dataIterDeref
      simp only [List.length_cons, intRKDL, pairRInfo]
      rw [if_neg (by omega)]
      show (readLE32 bytes (pre.length + 4), readLE32 bytes (pre.length + 4 + 4))
        = pairOfItem it
      rw [hreadKey, show pre.length + 4 + 4 = pre.length + 8 by omega,
        hreadData]
      rfl
    have hnext : dataIterNext bytes intRKDL
        ⟨pre.length, (it :: its).length, mm + 1⟩ =
        ⟨pre.length + 12, its.length, mm⟩ := by
      unfold dataIterNext
      simp only [List.length_cons, intRKDL]
      rw [if_neg (by omega)]
      show (⟨pre.length + 4 + 4 + 4, its.length + 1 - 1, mm + 1 - 1⟩ :
        DataIterState) = _
      simp
    rw [dataIterList_succ, hderef, hnext]
    have hpre4 : pre.length + 12 = (pre ++ entryBytes intWInfo it).length := by
      simp only [List.length_append, entryBytes_int_length]
    have hrec := ih (pre ++ entryBytes intWInfo it) suf mm hwf'
      (by simp at hm; omega)
    rw [← hshape4, ← hpre4] at hrec
    have hfix : dataIterList bytes intRKDL pairRInfo (mm - its.length)
        ⟨pre.length + 12 + 12 * its.length, 0, mm - its.length⟩ =
        dataIterList bytes intRKDL pairRInfo (mm + 1 - (it :: its).length)
        ⟨pre.length + 12 * (it :: its).length, 0,
          mm + 1 - (it :: its).length⟩ := by
      have h1 : mm - its.length = mm + 1 - (it :: its).length := by
        simp only [List.length_cons]; omega
      have h2 : pre.length + 12 + 12 * its.length =
          pre.length + 12 * (it :: its).length := by
        simp only [List.length_cons]; omega
      rw [h1, h2]
    rw [hrec, hfix]
    simp

/-- Walking one whole non-empty bucket block from a bucket boundary. -/
theorem dataIter_block (b : Bucket Nat Nat) (pre suf : List Nat) (m : Nat)
    (hwf : ∀ it ∈ b.head, ItemWFInt it)
    (hlenc : b.length = b.head.length) (hlen16 : b.head.length < 65536)
    (hne : b.head ≠ []) (hm : b.head.length ≤ m) :
    dataIterList (pre ++ (bucketBytes intWInfo b ++ suf)) intRKDL pairRInfo m
      ⟨pre.length, 0, m⟩ =
    b.head.map pairOfItem ++
      dataIterList (pre ++ (bucketBytes intWInfo b ++ suf)) intRKDL pairRInfo
        (m - b.head.length)
        ⟨pre.length + (bucketBytes intWInfo b).length, 0, m - b.head.length⟩ := by
  obtain ⟨x, xs, hx⟩ : ∃ x xs, b.head = x :: xs := by
    rcases hh : b.head with _ | ⟨x, xs⟩
    · exact absurd hh hne
    · exact ⟨x, xs, rfl⟩
  obtain ⟨mm, rfl⟩ : ∃ mm, m = mm + 1 := by
    rcases m with _ | mm
    · rw [hx] at hm; simp at hm
    · exact ⟨mm, rfl⟩
  obtain ⟨hhkx, hkltx, hdltx⟩ := hwf x (by rw [hx]; exact List.mem_cons_self x xs)
  set bytes := pre ++ (bucketBytes intWInfo b ++ suf) with hbytes
  have hshape0 : bytes = pre ++ (toLE16 b.length ++
      ((b.head.map (entryBytes intWInfo)).flatten ++ suf)) := by
    rw [hbytes, bucketBytes]
    simp [List.append_assoc]
  have hshape2 : bytes = (pre ++ toLE16 b.length ++ toLE32 x.hash) ++
      (toLE32 x.key ++ (toLE32 x.data ++
        ((xs.map (entryBytes intWInfo)).flatten ++ suf))) := by
    rw [hshape0, hx]
    simp [entryBytes_int, List.append_assoc]
  have hshape3 : bytes =
      (pre ++ toLE16 b.length ++ toLE32 x.hash ++ toLE32 x.key) ++
      (toLE32 x.data ++ ((xs.map (entryBytes intWInfo)).flatten ++ suf)) := by
    rw [hshape2]; simp [List.append_assoc]
  have hshape4 : bytes =
      (pre ++ toLE16 b.length ++ entryBytes intWInfo x) ++
      ((xs.map (entryBytes intWInfo)).flatten ++ suf) := by
    rw [hshape0, hx]
    simp [entryBytes_int, List.append_assoc]
  have hreadLen : readLE16 bytes pre.length = b.head.length := by
    rw [readLE16_at' bytes pre.length b.length pre _ hshape0 rfl, hlenc,
      Nat.mod_eq_of_lt hlen16]
  have hreadKey : readLE32 bytes (pre.length + 6) = x.key := by
    have hlen : pre.length + 6 =
        (pre ++ toLE16 b.length ++ toLE32 x.hash).length := by
      simp [toLE16, toLE32]
    rw [readLE32_at' bytes (pre.length + 6) x.key
      (pre ++ toLE16 b.length ++ toLE32 x.hash) _ hshape2 hlen,
      Nat.mod_eq_of_lt hkltx]
  have hreadData : readLE32 bytes (pre.length + 10) = x.data := by
    have hlen : pre.length + 10 =
        (pre ++ toLE16 b.length ++ toLE32 x.hash ++ toLE32 x.key).length := by
      simp [toLE16, toLE32]
    rw [readLE32_at' bytes (pre.length + 10) x.data
      (pre ++ toLE16 b.length ++ toLE32 x.hash ++ toLE32 x.key) _ hshape3 hlen,
      Nat.mod_eq_of_lt hdltx]
  have hderef : dataIterDeref bytes intRKDL pairRInfo
      ⟨pre.length, 0, mm + 1⟩ = pairOfItem x := by
    show (readLE32 bytes (pre.length + 2 + 4),
      readLE32 bytes (pre.length + 2 + 4 + 4)) = pairOfItem x
    rw [show pre.length + 2 + 4 = pre.length + 6 by omega,
      show pre.length + 2 + 4 + 4 = pre.length + 10 by omega,
      hreadKey, hreadData]
    rfl
  have hnext : dataIterNext bytes intRKDL ⟨pre.length, 0, mm + 1⟩ =
      ⟨pre.length + 14, xs.length, mm⟩ := by
    show (⟨pre.length + 2 + 4 + 4 + 4, readLE16 bytes pre.length - 1,
      mm + 1 - 1⟩ : DataIterState) = _
    rw [hreadLen, hx]
    simp only [List.length_cons, Nat.add_sub_cancel]
  rw [dataIterList_succ, hderef, hnext]
  have hpre14 : pre.length + 14 =
      (pre ++ toLE16 b.length ++ entryBytes intWInfo x).length := by
    simp only [List.length_append, toLE16_length, entryBytes_int_length]
  have hwf' : ∀ it ∈ xs, ItemWFInt it := by
    intro it hit
    exact hwf it (by rw [hx]; exact List.mem_cons_of_mem x hit)
  have hmm : xs.length ≤ mm := by
    rw [hx] at hm; simp at hm; omega
  have hrec := dataIter_chain xs
    (pre ++ toLE16 b.length ++ entryBytes intWInfo x) suf mm hwf' hmm
  rw [← hshape4, ← hpre14] at hrec
  have hfix : dataIterList bytes intRKDL pairRInfo (mm - xs.length)
      ⟨pre.length + 14 + 12 * xs.length, 0, mm - xs.length⟩ =
      dataIterList bytes intRKDL pairRInfo (mm + 1 - b.head.length)
      ⟨pre.length + (bucketBytes intWInfo b).length, 0,
        mm + 1 - b.head.length⟩ := by
    have h1 : mm - xs.length = mm + 1 - b.head.length := by
      rw [hx]; simp only [List.length_cons]; omega
    have h2 : pre.length + 14 + 12 * xs.length =
        pre.length + (bucketBytes intWInfo b).length := by
      rw [bucketBytes_int_length, hx]
      simp only [List.length_cons]
      omega
    rw [h1, h2]
  rw [hrec, hfix, hx]
  simp

end ODHT

namespace ODHT

/-- Iterating the whole payload from its first byte yields exactly the
    `(key, value)` pairs of all chained items, in payload order. -/
theorem dataIter_payload (buckets : List (Bucket Nat Nat)) :
    ∀ (pre suf : List Nat) (m : Nat),
    (∀ b ∈ buckets, (∀ it ∈ b.head, ItemWFInt it) ∧
      b.length = b.head.length ∧ b.head.length < 65536) →
    m = ((buckets.map Bucket.head).flatten).length →
    dataIterList (pre ++ (bucketsPayload intWInfo buckets ++ suf)) intRKDL
      pairRInfo m ⟨pre.length, 0, m⟩ =
    ((buckets.map Bucket.head).flatten).map pairOfItem := by
  induction buckets with
  | nil =>
    intro pre suf m _ hm
    simp only [List.map_nil, List.flatten_nil, List.length_nil] at hm
    subst hm
    rfl
  | cons b bs ih =>
    intro pre suf m hwf hm
    have hwf' : ∀ bb ∈ bs, (∀ it ∈ bb.head, ItemWFInt it) ∧
        bb.length = bb.head.length ∧ bb.head.length < 65536 :=
      fun bb hbb => hwf bb (List.mem_cons_of_mem b hbb)
    obtain ⟨hitemswf, hlenc, hlen16⟩ := hwf b (List.mem_cons_self b bs)
    by_cases hh : b.head = []
    · have hpay : bucketsPayload intWInfo (b :: bs) =
          bucketsPayload intWInfo bs := by
        unfold bucketsPayload
        rw [List.map_cons, List.flatten_cons, hh]
        simp
      have hflat : ((b :: bs).map Bucket.head).flatten =
          (bs.map Bucket.head).flatten := by
        rw [List.map_cons, List.flatten_cons, hh]
        simp
      rw [hflat] at hm
      rw [hpay, hflat]
      exact ih pre suf m hwf' hm
    · have hpay : bucketsPayload intWInfo (b :: bs) =
          bucketBytes intWInfo b ++ bucketsPayload intWInfo bs := by
        unfold bucketsPayload
        rw [List.map_cons, List.flatten_cons]
        congr 1
        rw [if_neg (by simp [List.isEmpty_iff, hh])]
      have hflat : ((b :: bs).map Bucket.head).flatten =
          b.head ++ (bs.map Bucket.head).flatten := by
        rw [List.map_cons, List.flatten_cons]
      have hmge : b.head.length ≤ m := by
        rw [hm, hflat]
        simp
      have hshape : pre ++ (bucketsPayload intWInfo (b :: bs) ++ suf) =
          pre ++ (bucketBytes intWInfo b ++
            (bucketsPayload intWInfo bs ++ suf)) := by
        rw [hpay]
        simp [List.append_assoc]
      rw [hshape]
      rw [dataIter_block b pre (bucketsPayload intWInfo bs ++ suf) m
        hitemswf hlenc hlen16 hh hmge]
      have hpre2 : pre.length + (bucketBytes intWInfo b).length =
          (pre ++ bucketBytes intWInfo b).length := by
        simp
      have hshape2 : pre ++ (bucketBytes intWInfo b ++
          (bucketsPayload intWInfo bs ++ suf)) =
          (pre ++ bucketBytes intWInfo b) ++
            (bucketsPayload intWInfo bs ++ suf) := by
        simp [List.append_assoc]
      have hm' : m - b.head.length = ((bs.map Bucket.head).flatten).length := by
        rw [hm, hflat]
        simp
      have hrec := ih (pre ++ bucketBytes intWInfo b) suf (m - b.head.length)
        hwf' hm'
      rw [← hshape2, ← hpre2] at hrec
      rw [hrec, hflat]
      simp [List.map_append]

end ODHT

/-! ## Claim C4 -/

namespace ODHT

/-- C4: for every insert sequence (32-bit keys and values, fewer than 2^16
    inserts, non-empty prefix) followed by `Emit`, iterating the iterable
    reader from `data_begin()` to `data_end()` yields exactly `NumEntries`
    entries, and the multiset of `(key, value)` pairs yielded equals the
    multiset of pairs inserted (the reader codec decodes each entry's key
    and value; the data iterator is observed through an `Info` whose
    `data_type` is the pair of the decoded key and value). -/
theorem claim_C4 (pairs : List (Nat × Nat)) (pre stream : List Nat)
    (dirOff : Nat)
    (hb : ∀ p ∈ pairs, p.1 < 4294967296 ∧ p.2 < 4294967296)
    (hcnt : pairs.length < 65536)
    (hpre : pre ≠ [])
    (hE : Emit intWInfo pre (insertList intWInfo (initGenerator Nat Nat) pairs)
      = some (stream, dirOff)) :
    ∃ t, CreateIterable stream dirOff pre.length intRKDL pairRInfo = some t ∧
      (dataAll t).length = pairs.length ∧
      List.Perm (dataAll t) pairs := by
  set g := insertList intWInfo (initGenerator Nat Nat) pairs with hg
  have hwfg : GenWF g := insertList_wf intWInfo pairs _ genWF_init
  obtain ⟨⟨e, he⟩, hblen, hcounter, _, _⟩ := hwfg
  have hNE : g.numEntries = pairs.length := by
    rw [hg, insertList_numEntries]
    simp [initGenerator]
  have hitems := insertList_items intWInfo pairs (initGenerator Nat Nat)
    genWF_init
  rw [genItems_init, List.append_nil, ← hg] at hitems
  have hlenItems : (genItems g).length = pairs.length := by
    rw [hitems.length_eq, List.length_map]
  obtain ⟨t0, payload, out, hp, hdir, hstream⟩ := Emit_eq _ _ _ _ _ hE
  obtain ⟨hle, hplen, _, hpay, _, _⟩ :=
    emitPayload_sound intWInfo g.buckets pre.length t0 payload out hp
  have hpre0 : 0 < pre.length := List.length_pos.2 hpre
  have hdirne : dirOff ≠ 0 := by
    have : 0 ≤ offsetToAlignment t0 4 := Nat.zero_le _
    omega
  have hdir4 : dirOff % 4 = 0 := by
    rw [hdir]; unfold offsetToAlignment; omega
  have hCreate : CreateIterable stream dirOff pre.length intRKDL pairRInfo =
      some ⟨⟨readLE32 stream dirOff, readLE32 stream (dirOff + 4), dirOff + 8,
        stream, intRKDL, pairRInfo⟩, pre.length⟩ := by
    unfold CreateIterable
    rw [if_neg hdirne, if_neg (by simp [hdir4])]
  have hprepay : (pre ++ payload ++
      List.replicate (offsetToAlignment t0 4) 0).length = dirOff := by
    simp only [List.length_append, List.length_replicate]
    omega
  have hNE32 : g.numEntries < 4294967296 := by omega
  have hNEread : readLE32 stream (dirOff + 4) = pairs.length := by
    rw [readLE32_at' stream (dirOff + 4) g.numEntries
      (pre ++ payload ++ List.replicate (offsetToAlignment t0 4) 0 ++
        toLE32 g.numBuckets)
      ((out.map fun b => toLE32 b.off).flatten)
      (by rw [hstream]; simp [List.append_assoc])
      (by simp only [List.length_append, List.length_replicate, toLE32_length]
          omega),
      Nat.mod_eq_of_lt hNE32]
    exact hNE
  have hbwf : ∀ b ∈ g.buckets, (∀ it ∈ b.head, ItemWFInt it) ∧
      b.length = b.head.length ∧ b.head.length < 65536 := by
    intro b hbmem
    obtain ⟨i, hi⟩ := List.getElem?_of_mem hbmem
    refine ⟨?_, hcounter i b hi, ?_⟩
    · intro it hit
      exact (genItems_wfInt pairs hb it
        (mem_chain_mem_genItems g i b hi it hit)).1
    · have := chain_length_le g i b hi
      omega
  have hm : pairs.length = ((g.buckets.map Bucket.head).flatten).length := by
    rw [← hlenItems]
    rfl
  have hshape : stream = pre ++ (bucketsPayload intWInfo g.buckets ++
      (List.replicate (offsetToAlignment t0 4) 0 ++
        (toLE32 g.numBuckets ++ toLE32 g.numEntries ++
          (out.map fun b => toLE32 b.off).flatten))) := by
    rw [hstream, hpay]
    simp [List.append_assoc]
  have hiter := dataIter_payload g.buckets pre
    (List.replicate (offsetToAlignment t0 4) 0 ++
      (toLE32 g.numBuckets ++ toLE32 g.numEntries ++
        (out.map fun b => toLE32 b.off).flatten)) pairs.length hbwf hm
  rw [← hshape] at hiter
  have hdata : dataAll (⟨⟨readLE32 stream dirOff, readLE32 stream (dirOff + 4),
      dirOff + 8, stream, intRKDL, pairRInfo⟩, pre.length⟩ :
        OnDiskIterableChainedHashTable Nat Nat (Nat × Nat)) =
      ((g.buckets.map Bucket.head).flatten).map pairOfItem := by
    unfold dataAll
    show dataIterList stream intRKDL pairRInfo (readLE32 stream (dirOff + 4))
      ⟨pre.length, 0, readLE32 stream (dirOff + 4)⟩ = _
    rw [hNEread]
    exact hiter
  refine ⟨_, hCreate, ?_, ?_⟩
  · rw [hdata, List.length_map]
    exact hlenItems
  · rw [hdata]
    have hpm : List.Perm (((g.buckets.map Bucket.head).flatten).map pairOfItem)
        ((pairs.map (itemOfPair intWInfo)).map pairOfItem) :=
      List.Perm.map pairOfItem hitems
    have hmapid : (pairs.map (itemOfPair intWInfo)).map pairOfItem = pairs := by
      rw [List.map_map]
      show pairs.map (fun p => (p.1, p.2)) = pairs
      simp
    rw [hmapid] at hpm
    exact hpm

set_option maxRecDepth 100000 in
/-- Witness for C4 at the scenario-2 single-insert table. -/
theorem claim_C4_witness :
    ∃ t, CreateIterable w1stream 24 (List.replicate 8 (0 : Nat)).length intRKDL
        pairRInfo = some t ∧
      (dataAll t).length = 1 ∧
      List.Perm (dataAll t) [(7, 42)] :=
  claim_C4 [(7, 42)] (List.replicate 8 0) w1stream 24
    (by decide) (by decide) (by decide) (by decide)

end ODHT

/-! ## Driving one bucket past 65535 entries (claim C8) -/

namespace ODHT

theorem insertItem_zeroBucket (sz j : Nat) (hsz : 0 < sz) :
    insertItem ((⟨0, List.replicate j ⟨0, 0, 0⟩, j⟩ : Bucket Nat Nat) ::
      List.replicate (sz - 1) ⟨0, [], 0⟩) sz ⟨0, 0, 0⟩ =
    (⟨0, List.replicate (j + 1) ⟨0, 0, 0⟩, j + 1⟩ : Bucket Nat Nat) ::
      List.replicate (sz - 1) ⟨0, [], 0⟩ := by
  unfold insertItem
  have hidx : (⟨0, 0, 0⟩ : Item Nat Nat).hash &&& (sz - 1) = 0 :=
    Nat.zero_and _
  rw [hidx]
  simp [List.set, List.replicate_succ]

theorem foldl_insertItem_zero (sz : Nat) (hsz : 0 < sz) (mcount : Nat) :
    ∀ (j : Nat),
    (List.replicate mcount (⟨0, 0, 0⟩ : Item Nat Nat)).foldl
      (fun a e => insertItem a sz e)
      ((⟨0, List.replicate j ⟨0, 0, 0⟩, j⟩ : Bucket Nat Nat) ::
        List.replicate (sz - 1) ⟨0, [], 0⟩) =
    (⟨0, List.replicate (j + mcount) ⟨0, 0, 0⟩, j + mcount⟩ : Bucket Nat Nat) ::
      List.replicate (sz - 1) ⟨0, [], 0⟩ := by
  induction mcount with
  | zero => intro j; simp
  | succ m ih =>
    intro j
    rw [List.replicate_succ, List.foldl_cons, insertItem_zeroBucket sz j hsz,
      ih (j + 1)]
    have : j + 1 + m = j + (m + 1) := by omega
    rw [this]

theorem foldl_buckets_empty (sz k : Nat) :
    ∀ (acc : List (Bucket Nat Nat)),
    (List.replicate k (⟨0, [], 0⟩ : Bucket Nat Nat)).foldl
      (fun a b => b.head.foldl (fun a2 e => insertItem a2 sz e) a) acc =
      acc := by
  induction k with
  | zero => intro acc; rfl
  | succ kk ih =>
    intro acc
    rw [List.replicate_succ, List.foldl_cons]
    exact ih acc

theorem dup_shape (n : Nat) :
    ∃ B, 0 < B ∧ insertList intWInfo (initGenerator Nat Nat) (dupPairs n) =
      ⟨B, n, (⟨0, List.replicate n ⟨0, 0, 0⟩, n⟩ : Bucket Nat Nat) ::
        List.replicate (B - 1) ⟨0, [], 0⟩⟩ := by
  induction n with
  | zero => exact ⟨64, by omega, rfl⟩
  | succ n ih =>
    obtain ⟨B, hB, hshape⟩ := ih
    have hstep : dupPairs (n + 1) = dupPairs n ++ [(0, 0)] := by
      unfold dupPairs
      rw [List.replicate_succ']
    have happ : insertList intWInfo (initGenerator Nat Nat) (dupPairs (n + 1)) =
        insert intWInfo
          (insertList intWInfo (initGenerator Nat Nat) (dupPairs n)) 0 0 := by
      rw [hstep]
      unfold insertList
      rw [List.foldl_append]
      rfl
    rw [happ, hshape]
    unfold insert
    simp only
    by_cases hc : 4 * (n + 1) ≥ 3 * B
    · rw [if_pos hc]
      refine ⟨B * 2, by omega, ?_⟩
      unfold resize
      simp only
      have hrep2 : List.replicate (B * 2) (⟨0, [], 0⟩ : Bucket Nat Nat) =
          (⟨0, List.replicate 0 ⟨0, 0, 0⟩, 0⟩ : Bucket Nat Nat) ::
            List.replicate (B * 2 - 1) ⟨0, [], 0⟩ := by
        have h2 : B * 2 = (B * 2 - 1) + 1 := by omega
        rw [h2, List.replicate_succ]
        rfl
      rw [List.foldl_cons, hrep2, foldl_insertItem_zero (B * 2) (by omega) n 0,
        foldl_buckets_empty]
      show Generator.mk (B * 2) (n + 1)
        (insertItem ((⟨0, List.replicate (0 + n) ⟨0, 0, 0⟩, 0 + n⟩ :
            Bucket Nat Nat) :: List.replicate (B * 2 - 1) ⟨0, [], 0⟩) (B * 2)
          ⟨0, 0, 0⟩) = _
      rw [show 0 + n = n by omega,
        insertItem_zeroBucket (B * 2) n (by omega)]
    · rw [if_neg hc]
      refine ⟨B, hB, ?_⟩
      show Generator.mk B (n + 1)
        (insertItem ((⟨0, List.replicate n ⟨0, 0, 0⟩, n⟩ : Bucket Nat Nat) ::
          List.replicate (B - 1) ⟨0, [], 0⟩) B ⟨0, 0, 0⟩) = _
      rw [insertItem_zeroBucket B n hB]

end ODHT

namespace ODHT

theorem emitPayload_cons_single (info : WInfo κ δ) (p : Nat) (hp : p ≠ 0)
    (x : Item κ δ) (xs : List (Item κ δ)) (off ln : Nat) (hln : ln ≠ 0)
    (k : Nat) :
    emitPayload info p ((⟨off, x :: xs, ln⟩ : Bucket κ δ) ::
      List.replicate k ⟨0, [], 0⟩) =
    some (p + (bucketBytes info ⟨off, x :: xs, ln⟩).length,
      bucketBytes info ⟨off, x :: xs, ln⟩ ++ [],
      (⟨p, x :: xs, ln⟩ : Bucket κ δ) :: List.replicate k ⟨0, [], 0⟩) := by
  unfold emitPayload
  simp only
  rw [if_neg hp, if_neg hln, emitPayload_replicate_empty]
  rfl

end ODHT

namespace ODHT

/-- C8: the code does NOT detect a bucket with more than 65535 entries at
    `Emit` time.  After 65536 inserts of the same key (all of which land in
    bucket 0), `Emit` succeeds and writes the 16-bit length field
    `65536 mod 2^16 = 0` — a truncated, wrong length that makes the bucket
    look empty — instead of rejecting. -/
theorem claim_C8 :
    ∃ stream dirOff,
      Emit intWInfo (List.replicate 8 0)
        (insertList intWInfo (initGenerator Nat Nat) (dupPairs 65536)) =
        some (stream, dirOff) ∧
      readLE16 stream 8 = 0 ∧
      ∃ b, (insertList intWInfo (initGenerator Nat Nat)
          (dupPairs 65536)).buckets[0]? = some b ∧
        b.length = 65536 ∧ b.head.length = 65536 := by
  obtain ⟨B, hB, hsh⟩ := dup_shape 65536
  have hrepl : List.replicate 65536 (⟨0, 0, 0⟩ : Item Nat Nat) =
      ⟨0, 0, 0⟩ :: List.replicate 65535 ⟨0, 0, 0⟩ := by
    rw [show (65536 : Nat) = 65535 + 1 from rfl, List.replicate_succ]
  rw [hsh, hrepl]
  have hpayload := emitPayload_cons_single intWInfo 8 (by omega)
    (⟨0, 0, 0⟩ : Item Nat Nat) (List.replicate 65535 ⟨0, 0, 0⟩) 0 65536
    (by omega) (B - 1)
  unfold Emit
  simp only [List.length_replicate]
  rw [hpayload]
  set blk := bucketBytes intWInfo
    (⟨0, ⟨0, 0, 0⟩ :: List.replicate 65535 ⟨0, 0, 0⟩, 65536⟩ :
      Bucket Nat Nat) with hblkdef
  refine ⟨_, _, rfl, ?_, ?_⟩
  · have hbs : List.replicate 8 (0 : Nat) ++ (blk ++ []) ++
        List.replicate (offsetToAlignment (8 + blk.length) 4) 0 ++
        (toLE32 B ++ toLE32 65536 ++
          ((((⟨8, ⟨0, 0, 0⟩ :: List.replicate 65535 ⟨0, 0, 0⟩, 65536⟩ :
              Bucket Nat Nat) ::
            List.replicate (B - 1) ⟨0, [], 0⟩).map fun b =>
              toLE32 b.off).flatten)) =
        List.replicate 8 0 ++ (toLE16 65536 ++
          (((((⟨0, 0, 0⟩ : Item Nat Nat) ::
              List.replicate 65535 ⟨0, 0, 0⟩).map
                (entryBytes intWInfo)).flatten) ++
            (List.replicate (offsetToAlignment (8 + blk.length) 4) 0 ++
              (toLE32 B ++ toLE32 65536 ++
                ((((⟨8, ⟨0, 0, 0⟩ :: List.replicate 65535 ⟨0, 0, 0⟩, 65536⟩ :
                    Bucket Nat Nat) ::
                  List.replicate (B - 1) ⟨0, [], 0⟩).map fun b =>
                    toLE32 b.off).flatten))))) := by
      have habc : ∀ (p x f z w : List Nat),
          p ++ ((x ++ f) ++ []) ++ z ++ w = p ++ (x ++ (f ++ (z ++ w))) := by
        intro p x f z w
        simp
      have hblk2 : blk = toLE16 65536 ++
          ((((⟨0, 0, 0⟩ : Item Nat Nat) ::
            List.replicate 65535 ⟨0, 0, 0⟩).map
              (entryBytes intWInfo)).flatten) := by
        rw [hblkdef]
        rfl
      rw [hblk2]
      exact habc _ _ _ _ _
    rw [readLE16_at' _ 8 65536 (List.replicate 8 0) _ hbs (by simp)]
  · refine ⟨_, List.getElem?_cons_zero, rfl, ?_⟩
    rw [List.length_cons, List.length_replicate]

end ODHT

/-! ## C10: the per-call codec of `find` -/

namespace ODHT

/-- Two per-call codecs that agree on `ReadKey` and `EqualKey` drive the
    chain walk to the same outcome (up to the codec stored in the returned
    iterator), and the returned iterator carries the per-call codec. -/
theorem findLoop_congr {ικ εκ δ : Type} (bytes : List Nat)
    (rkdl : List Nat → Nat → Nat × Nat × Nat) (P Q : RInfo ικ εκ δ)
    (hrk : P.ReadKey = Q.ReadKey) (heq : P.EqualKey = Q.EqualKey)
    (ikey : ικ) (kh : Nat) :
    ∀ (n pos : Nat),
      stripIter (findLoop bytes rkdl P ikey kh n pos) =
        stripIter (findLoop bytes rkdl Q ikey kh n pos) ∧
      ∀ (it : FoundIterator ικ εκ δ),
        findLoop bytes rkdl P ikey kh n pos = some it → it.info = P := by
  intro n
  induction n with
  | zero =>
    intro pos
    exact ⟨rfl, fun it h => nomatch h⟩
  | succ n ih =>
    intro pos
    have hstep : ∀ (R : RInfo ικ εκ δ),
        findLoop bytes rkdl R ikey kh (n + 1) pos =
        if readLE32 bytes pos ≠ kh then
          findLoop bytes rkdl R ikey kh n
            ((rkdl bytes (pos + 4)).1 +
              ((rkdl bytes (pos + 4)).2.1 + (rkdl bytes (pos + 4)).2.2))
        else if R.EqualKey
            (R.ReadKey bytes (rkdl bytes (pos + 4)).1
              (rkdl bytes (pos + 4)).2.1) ikey then
          some ⟨R.ReadKey bytes (rkdl bytes (pos + 4)).1
              (rkdl bytes (pos + 4)).2.1,
            (rkdl bytes (pos + 4)).1 + (rkdl bytes (pos + 4)).2.1,
            (rkdl bytes (pos + 4)).2.2, R⟩
        else
          findLoop bytes rkdl R ikey kh n
            ((rkdl bytes (pos + 4)).1 +
              ((rkdl bytes (pos + 4)).2.1 + (rkdl bytes (pos + 4)).2.2)) := by
      intro R
      rw [findLoop]
    rw [hstep P, hstep Q]
    by_cases hh : readLE32 bytes pos ≠ kh
    · rw [if_pos hh, if_pos hh]
      exact ih _
    · rw [if_neg hh, if_neg hh, ← hrk, ← heq]
      by_cases he : P.EqualKey
          (P.ReadKey bytes (rkdl bytes (pos + 4)).1
            (rkdl bytes (pos + 4)).2.1) ikey
      · rw [if_pos he, if_pos he]
        refine ⟨rfl, fun it h => ?_⟩
        cases Option.some.inj h
        rfl
      · rw [if_neg he, if_neg he]
        exact ih _

/-- C10: when `find` is called with an explicit per-call codec, the internal
    key and its hash — hence the probed bucket index — are still those
    computed by the reader's constructor codec, and the walk consults the
    per-call codec only through `ReadKey` and `EqualKey`; so two per-call
    codecs agreeing on those two methods (but differing arbitrarily in
    `ComputeHash`, `GetInternalKey` and `ReadData`) give the same lookup
    outcome up to the codec stored in the iterator, and the returned
    iterator's `ReadData` is the per-call one. -/
theorem claim_C10 {ικ εκ δ : Type} (ht : OnDiskChainedHashTable ικ εκ δ)
    (ekey : εκ) (P Q : RInfo ικ εκ δ)
    (hrk : P.ReadKey = Q.ReadKey) (heq : P.EqualKey = Q.EqualKey) :
    stripIter (find ht ekey (some P)) = stripIter (find ht ekey (some Q)) ∧
    ∀ (it : FoundIterator ικ εκ δ), find ht ekey (some P) = some it →
      it.info = P := by
  simp only [find, Option.getD_some]
  by_cases hoff : readLE32 ht.bytes (ht.bucketsPos +
      4 * (ht.info.ComputeHash (ht.info.GetInternalKey ekey) % 4294967296 &&&
        (ht.numBuckets - 1))) = 0
  · rw [if_pos hoff, if_pos hoff]
    exact ⟨rfl, fun it h => nomatch h⟩
  · rw [if_neg hoff, if_neg hoff]
    exact findLoop_congr ht.bytes ht.rkdl P Q hrk heq _ _ _ _

theorem claim_C10_witness :
    intRInfo.ReadKey = altRInfo.ReadKey ∧
    intRInfo.EqualKey = altRInfo.EqualKey ∧
    (stripIter (find ⟨64, 0, 16, emptyTableStream, intRKDL, intRInfo⟩ 0
        (some intRInfo)) =
      stripIter (find ⟨64, 0, 16, emptyTableStream, intRKDL, intRInfo⟩ 0
        (some altRInfo)) ∧
      ∀ (it : FoundIterator Nat Nat Nat),
        find ⟨64, 0, 16, emptyTableStream, intRKDL, intRInfo⟩ 0
          (some intRInfo) = some it → it.info = intRInfo) :=
  ⟨rfl, rfl, claim_C10 ⟨64, 0, 16, emptyTableStream, intRKDL, intRInfo⟩ 0
    intRInfo altRInfo rfl rfl⟩

end ODHT
